import Mathlib

/-!
Verification development for the `svg_path_simplifier` repository.

The development shallowly embeds the two core source files:

* `src/svgcom.rs` — the three-line "svgcom" plotter command text format:
  parsing (`SvgCom::from_svgcom_str` and its helpers) and serialization
  (`SvgCom::format_svgcom` and its helpers).
* `src/svgps.rs` — the occlusion-culling geometry engine: segment
  intersection, path cutting, winding-number coverage tests, and the
  top-level `autocut_paths` sweep.

Modelling conventions:

* Rust `f64` values are modelled as exact rationals (`ℚ`).  Every `f64` is a
  dyadic rational, so this is a faithful value-level model; numeric error of
  floating point is out of scope of the claims treated here.
* Rust `u32`/`usize` are modelled as `ℕ` with explicit `< 2 ^ 32` bounds where
  the source performs `u32` parsing or casting.
* Functions of the external `kurbo` library that require real-root finding
  (cubic/line intersection, exact cubic bounding boxes, cubic winding
  numbers, curve flattening) are not computable over `ℚ`; they are collected
  in a `KurboOracle` parameter threaded through the geometry code.  No
  theorem below depends on the oracle's values.  The remaining `kurbo`
  functions used by the source (line/line intersection, line windings, rect
  intersection, `eval`, `subsegment`) are modelled exactly, following the
  specification's description of those operations.
* A Rust panic (`unwrap` on `None`) is modelled as an explicit `panicked`
  outcome, distinct from `Ok`/`Err`.
-/

namespace Svgps

/-! ## Basic geometry data (kurbo value types, exact over ℚ) -/

/-- A point in document coordinates; models `kurbo::Point` with exact
rational coordinates. -/
@[ext]
structure Point where
  x : ℚ
  y : ℚ
deriving DecidableEq

/-- Models `kurbo::Line`. -/
@[ext]
structure Line where
  p0 : Point
  p1 : Point
deriving DecidableEq

/-- Models `kurbo::CubicBez`. -/
@[ext]
structure CubicBez where
  p0 : Point
  p1 : Point
  p2 : Point
  p3 : Point
deriving DecidableEq

/-- Models `kurbo::PathSeg`.  Quadratic segments never occur in this
program: paths are built from SVG move/line/cubic/close commands only, so
the `Quad` constructor of the Rust type is unreachable and is omitted. -/
inductive PathSeg where
  | line (l : Line)
  | cubic (c : CubicBez)
deriving DecidableEq

/-- Models `kurbo::Rect` (axis-aligned rectangle). -/
structure Rect where
  x0 : ℚ
  y0 : ℚ
  x1 : ℚ
  y1 : ℚ
deriving DecidableEq

/-- Models `kurbo::LineIntersection`: `line_t` is the parameter on the line
argument, `segment_t` the parameter on the receiver segment. -/
structure LineIntersection where
  line_t : ℚ
  segment_t : ℚ
deriving DecidableEq

/-- Placeholder segment used only as the (never-returned) default of
in-bounds list indexing, mirroring Rust's panicking `Index` which is only
invoked in-bounds by the source. -/
def PathSeg.dflt : PathSeg := .line ⟨⟨0, 0⟩, ⟨0, 0⟩⟩

/-- Models `kurbo::Line::eval`: linear interpolation from `p0` to `p1`. -/
def Line.evalAt (l : Line) (t : ℚ) : Point :=
  ⟨l.p0.x + t * (l.p1.x - l.p0.x), l.p0.y + t * (l.p1.y - l.p0.y)⟩

/-- Models `kurbo::CubicBez::eval`: the cubic Bernstein polynomial. -/
def CubicBez.evalAt (c : CubicBez) (t : ℚ) : Point :=
  let mt := 1 - t
  ⟨mt ^ 3 * c.p0.x + 3 * mt ^ 2 * t * c.p1.x + 3 * mt * t ^ 2 * c.p2.x + t ^ 3 * c.p3.x,
   mt ^ 3 * c.p0.y + 3 * mt ^ 2 * t * c.p1.y + 3 * mt * t ^ 2 * c.p2.y + t ^ 3 * c.p3.y⟩

/-- Models `kurbo::ParamCurve::eval` on `PathSeg`. -/
def PathSeg.evalAt : PathSeg → ℚ → Point
  | .line l, t => l.evalAt t
  | .cubic c, t => c.evalAt t

/-- Start point of a segment (`kurbo::ParamCurve::start`). -/
def PathSeg.startPoint : PathSeg → Point
  | .line l => l.p0
  | .cubic c => c.p0

/-- End point of a segment (`kurbo::ParamCurve::end`). -/
def PathSeg.endPoint : PathSeg → Point
  | .line l => l.p1
  | .cubic c => c.p3

/-- Derivative control evaluation for a cubic: the quadratic Bézier
`3(p1-p0), 3(p2-p1), 3(p3-p2)` evaluated at `t`, as used by kurbo's
`CubicBez::subsegment`. -/
def CubicBez.derivEval (c : CubicBez) (t : ℚ) : Point :=
  let mt := 1 - t
  ⟨mt ^ 2 * (3 * (c.p1.x - c.p0.x)) + 2 * mt * t * (3 * (c.p2.x - c.p1.x))
     + t ^ 2 * (3 * (c.p3.x - c.p2.x)),
   mt ^ 2 * (3 * (c.p1.y - c.p0.y)) + 2 * mt * t * (3 * (c.p2.y - c.p1.y))
     + t ^ 2 * (3 * (c.p3.y - c.p2.y))⟩

/-- Models `kurbo::ParamCurve::subsegment` on a line: the chord between the
evaluations at the two parameters. -/
def Line.subsegment (l : Line) (t0 t1 : ℚ) : Line :=
  ⟨l.evalAt t0, l.evalAt t1⟩

/-- Models `kurbo::ParamCurve::subsegment` on a cubic (kurbo's subdivision
formula: endpoints are the evaluations at the parameter bounds, inner
control points follow the scaled derivative). -/
def CubicBez.subsegment (c : CubicBez) (t0 t1 : ℚ) : CubicBez :=
  let p0 := c.evalAt t0
  let p3 := c.evalAt t1
  let scale := (t1 - t0) / 3
  let d0 := c.derivEval t0
  let d1 := c.derivEval t1
  ⟨p0, ⟨p0.x + scale * d0.x, p0.y + scale * d0.y⟩,
       ⟨p3.x - scale * d1.x, p3.y - scale * d1.y⟩, p3⟩

/-- Models `kurbo::ParamCurve::subsegment` on `PathSeg`. -/
def PathSeg.subsegment : PathSeg → ℚ → ℚ → PathSeg
  | .line l, t0, t1 => .line (l.subsegment t0 t1)
  | .cubic c, t0, t1 => .cubic (c.subsegment t0 t1)

/-- Models `kurbo::Rect::from_points` (normalizing the two corners). -/
def rectFromPoints (p q : Point) : Rect :=
  ⟨min p.x q.x, min p.y q.y, max p.x q.x, max p.y q.y⟩

/-- Models `kurbo::Rect::intersect`: the intersection rectangle, clamped to
zero size when the rectangles do not overlap. -/
def Rect.intersectR (r s : Rect) : Rect :=
  let x0 := max r.x0 s.x0
  let y0 := max r.y0 s.y0
  ⟨x0, y0, max (min r.x1 s.x1) x0, max (min r.y1 s.y1) y0⟩

/-- Models `kurbo::Rect::width`. -/
def Rect.width (r : Rect) : ℚ := r.x1 - r.x0

/-- Models `kurbo::Rect::height`. -/
def Rect.height (r : Rect) : ℚ := r.y1 - r.y0

/-! ## The kurbo oracle

The source calls four `kurbo` routines whose exact values require real-root
finding and are computed numerically by the library: `PathSeg::intersect_line`
on a cubic receiver, `CubicBez::bounding_box`, the cubic case of
`PathSeg::winding`, and curve flattening (`into_path` + `flatten`).  They are
external library code (not part of this repository) and are modelled as an
explicit parameter; every theorem below holds for all oracles. -/

/-- Parameter bundling the numeric `kurbo` routines on cubic curves. -/
structure KurboOracle where
  /-- `kurbo::PathSeg::Cubic(..).intersect_line(line)`. -/
  cubicLine : CubicBez → Line → List LineIntersection
  /-- `kurbo::CubicBez::bounding_box()`. -/
  cubicBox : CubicBez → Rect
  /-- cubic case of `kurbo::PathSeg::winding`. -/
  cubicWinding : CubicBez → Point → ℤ
  /-- the points collected by `curve_to_points` from kurbo's
  `into_path(precision)` + `flatten(precision)` of a cubic. -/
  flattenPoints : CubicBez → ℚ → List Point

/-- Models the exact closed-form 2D segment/segment intersection of
`kurbo::PathSeg::intersect_line` on a `Line` receiver, as described by the
specification: parallel or collinear pairs yield no intersection, otherwise
the crossing parameters on both segments are computed and the intersection
is reported when both lie in `[0, 1]`.  `segment_t` is the parameter on the
receiver `l`, `line_t` the parameter on the argument `line`. -/
def lineLineIntersections (l : Line) (line : Line) : List LineIntersection :=
  let d1x := l.p1.x - l.p0.x
  let d1y := l.p1.y - l.p0.y
  let d2x := line.p1.x - line.p0.x
  let d2y := line.p1.y - line.p0.y
  let det := d1x * d2y - d1y * d2x
  if det = 0 then []
  else
    let t := ((line.p0.x - l.p0.x) * d2y - (line.p0.y - l.p0.y) * d2x) / det
    let u := ((line.p0.x - l.p0.x) * d1y - (line.p0.y - l.p0.y) * d1x) / det
    if 0 ≤ t ∧ t ≤ 1 ∧ 0 ≤ u ∧ u ≤ 1 then [⟨u, t⟩] else []

/-- Models `kurbo::PathSeg::intersect_line`. -/
def PathSeg.intersect_line (K : KurboOracle) : PathSeg → Line → List LineIntersection
  | .line l, ln => lineLineIntersections l ln
  | .cubic c, ln => K.cubicLine c ln

/-- Models `kurbo::PathSeg::bounding_box`. -/
def PathSeg.bounding_box (K : KurboOracle) : PathSeg → Rect
  | .line l => rectFromPoints l.p0 l.p1
  | .cubic c => K.cubicBox c

/-- Embeds `bbox_intersect` (src/svgps.rs): the rectangles' intersection
must have strictly positive width and height. -/
def bbox_intersect (bbox1 bbox2 : Rect) : Bool :=
  let i := bbox1.intersectR bbox2
  decide (0 < i.width) && decide (0 < i.height)

/-- Embeds `curve_to_points` (src/svgps.rs): the polyline vertices of the
flattened curve, delegated to kurbo's flattening (oracle). -/
def curve_to_points (K : KurboOracle) (curve : CubicBez) (precision : ℚ) : List Point :=
  K.flattenPoints curve precision

/-- Embeds `get_line_intersection` (src/svgps.rs). -/
def get_line_intersection (K : KurboOracle) (intersected : PathSeg) (intersecting : Line)
    (_precision : ℚ) : List LineIntersection :=
  intersected.intersect_line K intersecting

/-- Embeds `get_reverse_line_intersection` (src/svgps.rs): intersects the
cubic with the line and swaps the parameter roles in each record. -/
def get_reverse_line_intersection (K : KurboOracle) (intersected : Line)
    (intersecting : CubicBez) (_precision : ℚ) : List LineIntersection :=
  ((PathSeg.cubic intersecting).intersect_line K intersected).map
    (fun i => ⟨i.segment_t, i.line_t⟩)

/-- Embeds `get_curve_intersection` (src/svgps.rs): a line receiver is
delegated to the reversed line intersection; otherwise the bounding boxes
are tested and, on overlap, the intersecting cubic is flattened and each
polyline edge is intersected with the receiver. -/
def get_curve_intersection (K : KurboOracle) (intersected : PathSeg)
    (intersecting : CubicBez) (precision : ℚ) : List LineIntersection :=
  match intersected with
  | .line l => get_reverse_line_intersection K l intersecting precision
  | .cubic c =>
    if ¬ bbox_intersect ((PathSeg.cubic c).bounding_box K) (K.cubicBox intersecting) then []
    else
      let points := curve_to_points K intersecting precision
      (points.zip points.tail).foldl
        (fun acc se =>
          acc ++ (PathSeg.cubic c).intersect_line K ⟨se.1, se.2⟩) []

/-- Instrumentation mirror of `get_curve_intersection`: `true` exactly when
the call reaches the curve-flattening branch.  Defined with the same branch
structure as the source function; used to state that bounding-box pruning
skips flattening. -/
def curveIntersectionFlattens (K : KurboOracle) (intersected : PathSeg)
    (intersecting : CubicBez) : Bool :=
  match intersected with
  | .line _ => false
  | .cubic c => bbox_intersect ((PathSeg.cubic c).bounding_box K) (K.cubicBox intersecting)

/-- Embeds `get_segment_intersection` (src/svgps.rs): dispatch on the
intersecting segment's kind. -/
def get_segment_intersection (K : KurboOracle) (intersected intersecting : PathSeg)
    (precision : ℚ) : List LineIntersection :=
  match intersecting with
  | .line l => get_line_intersection K intersected l precision
  | .cubic c => get_curve_intersection K intersected c precision

/-! ## Winding numbers

`CoveringShape::covers_point` calls `kurbo::BezPath::winding`, which sums
the winding contributions of the path's segments.  The line-segment
contribution is the exact signed ray-crossing count described by the
specification ("signed crossing count of a ray from the point"): an upward
crossing of the horizontal ray to the right of the point counts `+1`, a
downward crossing counts `-1`, with the half-open convention on the `y`
range.  The cubic contribution is numeric in kurbo and comes from the
oracle. -/

/-- Signed crossing-count contribution of one line segment to the winding
number of a point. -/
def Line.windingAt (l : Line) (p : Point) : ℤ :=
  let cross := (l.p1.x - l.p0.x) * (p.y - l.p0.y) - (l.p1.y - l.p0.y) * (p.x - l.p0.x)
  if l.p0.y ≤ p.y ∧ p.y < l.p1.y then (if 0 < cross then 1 else 0)
  else if l.p1.y ≤ p.y ∧ p.y < l.p0.y then (if cross < 0 then -1 else 0)
  else 0

/-- Models `kurbo::PathSeg::winding`. -/
def PathSeg.windingAt (K : KurboOracle) : PathSeg → Point → ℤ
  | .line l, p => l.windingAt p
  | .cubic c, p => K.cubicWinding c p

/-- Models `kurbo::BezPath::winding`: the sum of the segments'
contributions.  A `BezPath` built by `BezPath::from_path_segments` is
modelled by its segment list, which that constructor preserves. -/
def bezpathWinding (K : KurboOracle) (segs : List PathSeg) (p : Point) : ℤ :=
  (segs.map (fun s => s.windingAt K p)).sum

/-! ## SVG path nodes and paths -/

/-- Models `usvg::PathCommand`. -/
inductive SvgPathCommand where
  | moveTo
  | lineTo
  | curveTo
  | closePath
deriving DecidableEq

/-- Models `usvg::FillRule`. -/
inductive SvgFillRule where
  | nonzero
  | evenodd
deriving DecidableEq

/-- Models `SvgPathNode` (src/svgps.rs): a reference to a `usvg` path node.
`id` models the node's allocation identity: `PartialEq` for `SvgPathNode`
compares the underlying reference-counted nodes by identity, so two
distinct document nodes compare unequal even with identical content.
`commands` models `path.data.commands()`; `fill` models the optional fill
attribute together with its fill rule. -/
structure SvgPathNode where
  id : ℕ
  commands : List SvgPathCommand
  fill : Option SvgFillRule
deriving DecidableEq

/-- Models `PartialEq for SvgPathNode` (node identity comparison). -/
def nodeEq (a b : SvgPathNode) : Bool := a.id == b.id

/-- Embeds `SvgPathNode::is_closed`: the command list is nonempty and its
last command is `ClosePath`. -/
def SvgPathNode.is_closed (n : SvgPathNode) : Bool :=
  decide (0 < n.commands.length) &&
    (n.commands.getLast? == some SvgPathCommand.closePath)

/-- Embeds `SvgPathNode::can_cover`: closed and filled. -/
def SvgPathNode.can_cover (n : SvgPathNode) : Bool :=
  n.is_closed && n.fill.isSome

/-- Embeds `SvgPathNode::test_winding`: applies the fill rule to a winding
number; a node without fill never reports "inside". -/
def SvgPathNode.test_winding (n : SvgPathNode) (winding : ℤ) : Bool :=
  match n.fill with
  | some SvgFillRule.evenodd => decide (winding % 2 ≠ 0)
  | some SvgFillRule.nonzero => decide (winding ≠ 0)
  | none => false

/-- Models `Path` (src/svgps.rs): the intermediate representation, a source
node plus elementary segments. -/
structure Path where
  source : SvgPathNode
  segments : List PathSeg
deriving DecidableEq

/-- Embeds `Path::new`: an empty path with the given source. -/
def Path.new (svg_path : SvgPathNode) : Path := ⟨svg_path, []⟩

/-- Models `CoveringShape` (src/svgps.rs).  The `kurbo::BezPath` field is
modelled by its segment list: `BezPath::from_path_segments` preserves the
segment sequence, and `winding` only consumes the segments. -/
structure CoveringShape where
  source : SvgPathNode
  bezpath : List PathSeg
deriving DecidableEq

/-- Embeds `CoveringShape::new`: `None` unless the path can cover (closed
and filled) and has at least one segment. -/
def CoveringShape.new (path : Path) : Option CoveringShape :=
  if ¬ path.source.can_cover ∨ path.segments.length = 0 then none
  else some ⟨path.source, path.segments⟩

/-- Embeds `CoveringShape::covers_point`: winding number of the point
against the contour, filtered through the source's fill rule. -/
def CoveringShape.covers_point (K : KurboOracle) (s : CoveringShape) (point : Point) : Bool :=
  s.source.test_winding (bezpathWinding K s.bezpath point)

/-- Embeds `Path::is_covered_by`: false for the same source node or an
empty path; otherwise tests the midpoint (`eval(0.5)`) of the segment at
index `len / 2`.  The index is always in bounds (the length is nonzero
here), so the `getD` default is never returned. -/
def Path.is_covered_by (K : KurboOracle) (p : Path) (shape : CoveringShape) : Bool :=
  if nodeEq p.source shape.source then false
  else if p.segments.length = 0 then false
  else shape.covers_point K
    ((p.segments.getD (p.segments.length / 2) PathSeg.dflt).evalAt (1 / 2))

/-! ## Intersection maps

`PathIntersections` is a Rust `HashMap<usize, Vec<LineIntersection>>`; it is
modelled as an association list with unique keys.  The source only inserts,
extends in place, looks up, tests emptiness, and sorts each bucket, so no
theorem depends on any iteration order. -/

/-- Models `PathIntersections = HashMap<usize, Vec<LineIntersection>>`. -/
abbrev PathIntersections := List (ℕ × List LineIntersection)

/-- Models `HashMap::contains_key`. -/
def piContains (m : PathIntersections) (i : ℕ) : Bool := m.any (fun e => e.1 == i)

/-- Models `HashMap::get` / `Index`. -/
def piFind (m : PathIntersections) (i : ℕ) : List LineIntersection :=
  match m.find? (fun e => e.1 == i) with
  | some e => e.2
  | none => []

/-- Models the source's insert-or-extend on the map: `get_mut(..).extend`
when the key is present, `insert` otherwise. -/
def piInsertOrExtend (m : PathIntersections) (i : ℕ)
    (xs : List LineIntersection) : PathIntersections :=
  match m with
  | [] => [(i, xs)]
  | e :: rest => if e.1 == i then (e.1, e.2 ++ xs) :: rest else e :: piInsertOrExtend rest i xs

/-- Models `HashMap::is_empty`. -/
def piIsEmpty (m : PathIntersections) : Bool := m.isEmpty

/-! ## Path cutting -/

/-- Embeds `cut_segment` (src/svgps.rs): splits a segment at the recorded
parameters, walking the `[last_t, segment_t]` windows and closing with
`[last_t, 1]`.  Requires the records sorted by `segment_t` for the result
to partition the parameter range in order. -/
def cutSegmentGo (segment : PathSeg) (last_t : ℚ) :
    List LineIntersection → List PathSeg
  | [] => [segment.subsegment last_t 1]
  | i :: rest => segment.subsegment last_t i.segment_t :: cutSegmentGo segment i.segment_t rest

/-- Embeds `cut_segment` (src/svgps.rs). -/
def cut_segment (segment : PathSeg) (intersections : List LineIntersection) : List PathSeg :=
  cutSegmentGo segment 0 intersections

/-- Replaces the last element of a list by its image under `f`; models the
source's `subpaths.last_mut().unwrap()` pushes (the list is always
nonempty there). -/
def modifyLast (f : Path → Path) : List Path → List Path
  | [] => []
  | [p] => [f p]
  | p :: q :: rest => p :: modifyLast f (q :: rest)

/-- Appends one segment to the last sub-path of the list. -/
def pushSeg (sps : List Path) (s : PathSeg) : List Path :=
  modifyLast (fun p => { p with segments := p.segments ++ [s] }) sps

/-- One step of `cut_path`'s loop over the enumerated segments: an
un-intersected segment is appended to the last sub-path; an intersected
segment is split, the first fragment extends the last sub-path, and every
further fragment begins a new sub-path. -/
def cutPathStep (src : SvgPathNode) (intersections : PathIntersections)
    (sps : List Path) (iseg : ℕ × PathSeg) : List Path :=
  if ¬ piContains intersections iseg.1 then pushSeg sps iseg.2
  else
    let subsegments := cut_segment iseg.2 (piFind intersections iseg.1)
    let sps1 := match subsegments.head? with
      | some s => pushSeg sps s
      | none => sps
    subsegments.tail.foldl (fun acc s => pushSeg (acc ++ [Path.new src]) s) sps1

/-- Embeds `cut_path` (src/svgps.rs). -/
def cut_path (path : Path) (intersections : PathIntersections) : List Path :=
  path.segments.enum.foldl (cutPathStep path.source intersections) [Path.new path.source]

/-! ## The intersection sweep -/

/-- Embeds the inner loops of `get_path_intersections` (src/svgps.rs): for
each enumerated segment of the intersected path and each segment of the
intersecting path, nonempty pair intersections are inserted into (or extend)
the map at the segment's index. -/
def get_path_intersections (K : KurboOracle) (intersected intersecting : Path)
    (intersections : PathIntersections) (precision : ℚ) : PathIntersections :=
  intersected.segments.enum.foldl
    (fun m iseg =>
      intersecting.segments.foldl
        (fun m s2 =>
          let si := get_segment_intersection K iseg.2 s2 precision
          if si.isEmpty then m else piInsertOrExtend m iseg.1 si)
        m)
    intersections

/-- Stable insertion of a record into a list ascending by `segment_t`
(placed before the first strictly greater element). -/
def insertByT (x : LineIntersection) : List LineIntersection → List LineIntersection
  | [] => [x]
  | y :: ys => if y.segment_t < x.segment_t then y :: insertByT x ys else x :: y :: ys

/-- Stable ascending sort by `segment_t`; models the source's
`sort_by(partial_cmp on segment_t)` (a stable sort, and `partial_cmp` is
total on the rationals modelling the finite floats that occur). -/
def sortByT : List LineIntersection → List LineIntersection
  | [] => []
  | x :: xs => insertByT x (sortByT xs)

/-- Embeds `intersect_paths` (src/svgps.rs): `result[i]` maps segment
indices of `paths[i]` to its intersections with all strictly later paths,
each bucket sorted ascending by `segment_t`. -/
def intersect_paths (K : KurboOracle) (paths : List Path) (precision : ℚ) :
    List PathIntersections :=
  paths.enum.map (fun ip =>
    let m := (paths.drop (ip.1 + 1)).foldl
      (fun m q => get_path_intersections K ip.2 q m precision) []
    m.map (fun e => (e.1, sortByT e.2)))

/-- Embeds `cut_paths` (src/svgps.rs): paths without intersections are kept
whole, the others are cut. -/
def cut_paths (paths : List Path) (intersections : List PathIntersections) : List Path :=
  (paths.zip intersections).flatMap
    (fun pm => if piIsEmpty pm.2 then [pm.1] else cut_path pm.1 pm.2)

/-- Embeds `create_covering_shapes` (src/svgps.rs). -/
def create_covering_shapes (paths : List Path) : List (Option CoveringShape) :=
  paths.map CoveringShape.new

/-- The z-index update of `remove_covered_paths`'s filter closure:
incremented when the source node changes. -/
def zStep (last cur : SvgPathNode) (z : ℕ) : ℕ :=
  if ¬ nodeEq last cur then z + 1 else z

/-- The loop of `remove_covered_paths` (src/svgps.rs): walks the cut paths
in order, incrementing the z-index whenever the source node changes, and
keeps a path unless some covering shape of a strictly later z-index covers
it. -/
def removeCoveredGo (K : KurboOracle) (covering_shapes : List (Option CoveringShape)) :
    List Path → ℕ → SvgPathNode → List Path
  | [], _, _ => []
  | p :: rest, z_index, last_svg_node =>
    let z' := zStep last_svg_node p.source z_index
    let keep := (covering_shapes.drop (z' + 1)).all
      (fun shape => match shape with
        | none => true
        | some s => ! p.is_covered_by K s)
    (if keep then [p] else []) ++ removeCoveredGo K covering_shapes rest z' p.source

/-- Embeds `remove_covered_paths` (src/svgps.rs).  Requires the paths'
sources to appear in the same order as the covering shapes' sources. -/
def remove_covered_paths (K : KurboOracle) (paths : List Path)
    (covering_shapes : List (Option CoveringShape)) : List Path :=
  match paths with
  | [] => []
  | p0 :: _ => removeCoveredGo K covering_shapes paths 0 p0.source

/-- Embeds `autocut_paths` (src/svgps.rs): intersect, cut, build covering
shapes, and drop covered fragments. -/
def autocut_paths (K : KurboOracle) (paths : List Path) (precision : ℚ) : List Path :=
  remove_covered_paths K (cut_paths paths (intersect_paths K paths precision))
    (create_covering_shapes paths)

/-! ## The svgcom text format (src/svgcom.rs)

Strings are processed as character lists.  `str::lines`,
`str::split_whitespace`, `u32::from_str` and (a no-exponent fragment of)
`f64::from_str` are modelled structurally below; float values are exact
rationals. -/

/-- Drops a single trailing carriage return, as `str::lines` does for
`\r\n` line endings. -/
def stripCR (l : List Char) : List Char :=
  if l.getLast? = some '\r' then l.dropLast else l

/-- Worker for `rustLines`: accumulates the current line (reversed). -/
def rustLinesGo : List Char → List Char → List (List Char)
  | [], acc => if acc.isEmpty then [] else [acc.reverse]
  | c :: rest, acc =>
    if c = '\n' then stripCR acc.reverse :: rustLinesGo rest []
    else rustLinesGo rest (c :: acc)

/-- Models Rust's `str::lines`: split at `\n` (stripping a `\r` directly
before it), with an optional final line terminator. -/
def rustLines (s : String) : List (List Char) := rustLinesGo s.data []

/-- ASCII whitespace test; models `char::is_whitespace` on the characters
this format can contain. -/
def isWs (c : Char) : Bool := c = ' ' || c = '\t' || c = '\n' || c = '\r'

/-- Worker for `splitWs`: accumulates the current token (reversed). -/
def splitWsGo : List Char → List Char → List (List Char)
  | [], acc => if acc.isEmpty then [] else [acc.reverse]
  | c :: rest, acc =>
    if isWs c then
      (if acc.isEmpty then splitWsGo rest [] else acc.reverse :: splitWsGo rest [])
    else splitWsGo rest (c :: acc)

/-- Models Rust's `str::split_whitespace`: maximal nonempty tokens between
whitespace runs. -/
def splitWs (cs : List Char) : List (List Char) := splitWsGo cs []

/-- Decimal digit test. -/
def isDigitCh (c : Char) : Bool := '0' ≤ c && c ≤ '9'

/-- Accumulating decimal reader; fails at the first non-digit. -/
def parseDigitsGo : List Char → ℕ → Option ℕ
  | [], acc => some acc
  | c :: rest, acc =>
    if isDigitCh c then parseDigitsGo rest (acc * 10 + (c.toNat - 48)) else none

/-- Reads a nonempty all-digit token as a natural number. -/
def parseNatDigits (cs : List Char) : Option ℕ :=
  if cs.isEmpty then none else parseDigitsGo cs 0

/-- Models `u32::from_str`: an optional leading `+`, then decimal digits;
rejects the empty string, non-digits and values not fitting in 32 bits. -/
def rustParseU32 (cs : List Char) : Option ℕ :=
  let cs := if cs.head? = some '+' then cs.tail else cs
  match parseNatDigits cs with
  | some n => if n < 2 ^ 32 then some n else none
  | none => none

/-- Unsigned part of the `f64` grammar: `digits`, `digits.digits`,
`digits.` or `.digits` (at least one digit in total), read as an exact
rational. -/
def rustParseF64core (cs : List Char) : Option ℚ :=
  let ip := cs.takeWhile isDigitCh
  let rest := cs.dropWhile isDigitCh
  if rest = [] then
    match parseNatDigits ip with
    | some n => some (n : ℚ)
    | none => none
  else if rest.head? = some '.' then
    let frac := rest.tail
    if frac.all isDigitCh ∧ ¬ (ip.isEmpty ∧ frac.isEmpty) then
      match parseDigitsGo (ip ++ frac) 0 with
      | some n => some ((n : ℚ) / 10 ^ frac.length)
      | none => none
    else none
  else none

/-- Models `f64::from_str` on the inputs this format produces: optional
sign, then plain decimal digits with an optional point.  Exponent forms,
`inf` and `NaN` are not produced by the serializer and are outside the
model. -/
def rustParseF64 (cs : List Char) : Option ℚ :=
  if cs.head? = some '-' then (rustParseF64core cs.tail).map Neg.neg
  else if cs.head? = some '+' then rustParseF64core cs.tail
  else rustParseF64core cs

/-- Models `kurbo::PathEl`, the elements of `SvgCom::commands`.  The
quadratic constructor of the Rust type is unreachable in this program (no
parser or converter ever emits one) and is omitted. -/
inductive PathEl where
  | moveTo (p : Point)
  | lineTo (p : Point)
  | curveTo (p1 p2 p3 : Point)
  | closePath
deriving DecidableEq

/-- Models `ImageSize` (u32 width/height). -/
structure ImageSize where
  width : ℕ
  height : ℕ
deriving DecidableEq

/-- Models `SvgCom`: the final svgcom representation. -/
structure SvgCom where
  view_size : ImageSize
  commands : List PathEl
deriving DecidableEq

/-- Ceiling of a rational as an integer, via floor division. -/
def ratCeil (q : ℚ) : ℤ := -((-q.num).fdiv q.den)

/-- Models Rust's saturating `f64 → u32` `as`-cast composed with `ceil()`,
as in `SvgCom::new`. -/
def u32ofRatCeil (q : ℚ) : ℕ :=
  let i := ratCeil q
  if i ≤ 0 then 0 else min i.toNat (2 ^ 32 - 1)

/-- Embeds `SvgCom::new`. -/
def SvgCom.new (width height : ℚ) : SvgCom :=
  ⟨⟨u32ofRatCeil width, u32ofRatCeil height⟩, []⟩

/-- The distinct error conditions of svgcom parsing; models the
corresponding `Err(String)` messages of the source:
`tooFewLines` = "Expected at least 3 lines",
`metricsInt` = "Uint32 parsing error: ..",
`metricsCount` = "Expected 4 metrics components: ..",
`coordsFloat` = "Float64 parsing error: ..",
`lengthMismatch` = "Data length does not match the header information",
`invalidCommand c` = "Invalid command: c". -/
inductive ParseErr where
  | tooFewLines
  | metricsInt
  | metricsCount
  | coordsFloat
  | lengthMismatch
  | invalidCommand (c : Char)
deriving DecidableEq

/-- Embeds `SvgCom::parse_svgcom_metrics`: every whitespace token must be a
`u32` and there must be exactly four of them. -/
def parse_svgcom_metrics (line : List Char) : Except ParseErr (List ℕ) :=
  match (splitWs line).mapM rustParseU32 with
  | none => .error .metricsInt
  | some metrics =>
    if metrics.length ≠ 4 then .error .metricsCount else .ok metrics

/-- Embeds `SvgCom::parse_svgcom_commands`: the line's characters. -/
def parse_svgcom_commands (line : List Char) : List Char := line

/-- Embeds `SvgCom::parse_svgcom_coords`: every whitespace token must be an
`f64`. -/
def parse_svgcom_coords (line : List Char) : Except ParseErr (List ℚ) :=
  match (splitWs line).mapM rustParseF64 with
  | none => .error .coordsFloat
  | some coords => .ok coords

/-- Embeds `SvgCom::validate_svgcom_metrics`: the command and coordinate
counts must match the header. -/
def validate_svgcom_metrics (metrics : List ℕ) (commands : List Char)
    (coords : List ℚ) : Except ParseErr Unit :=
  if commands.length ≠ metrics.getD 2 0 ∨ coords.length ≠ metrics.getD 3 0 then
    .error .lengthMismatch
  else .ok ()

/-- Two coordinates taken from the stream, or `none` when the stream is
exhausted (the source `unwrap`s and panics in that case). -/
def takePoint : List ℚ → Option (Point × List ℚ)
  | x :: y :: rest => some (⟨x, y⟩, rest)
  | _ => none

/-- Outcome of `read_svgcom_data`: the collected elements, a fatal invalid
command letter, or a panic from running out of coordinates. -/
inductive ReadOutcome where
  | ok (els : List PathEl)
  | err (c : Char)
  | panicked
deriving DecidableEq

/-- Embeds the loop of `SvgCom::read_svgcom_data`: `M`/`L` consume one
point, `C` three, `Z` none; any other letter is a fatal error; an exhausted
coordinate iterator is the source's `unwrap` panic. -/
def readSvgcomDataGo : List Char → List ℚ → List PathEl → ReadOutcome
  | [], _, acc => .ok acc.reverse
  | c :: rest, coords, acc =>
    if c = 'M' then
      match takePoint coords with
      | some pc => readSvgcomDataGo rest pc.2 (.moveTo pc.1 :: acc)
      | none => .panicked
    else if c = 'L' then
      match takePoint coords with
      | some pc => readSvgcomDataGo rest pc.2 (.lineTo pc.1 :: acc)
      | none => .panicked
    else if c = 'C' then
      match takePoint coords with
      | some pc1 =>
        match takePoint pc1.2 with
        | some pc2 =>
          match takePoint pc2.2 with
          | some pc3 => readSvgcomDataGo rest pc3.2 (.curveTo pc1.1 pc2.1 pc3.1 :: acc)
          | none => .panicked
        | none => .panicked
      | none => .panicked
    else if c = 'Z' then readSvgcomDataGo rest coords (.closePath :: acc)
    else .err c

/-- Embeds `SvgCom::read_svgcom_data`. -/
def read_svgcom_data (commands : List Char) (coords : List ℚ) : ReadOutcome :=
  readSvgcomDataGo commands coords []

/-- Result of `SvgCom::from_svgcom_str`: a value, an error, or a panic
(the latter is the coordinate-underrun `unwrap` inside
`read_svgcom_data`). -/
inductive ParseResult where
  | ok (sc : SvgCom)
  | error (e : ParseErr)
  | panicked
deriving DecidableEq

/-- Whether the parse produced a value. -/
def ParseResult.isOk : ParseResult → Bool
  | .ok _ => true
  | _ => false

/-- Embeds `SvgCom::from_svgcom_str`: requires at least three lines, parses
the metrics, command and coordinate lines, validates the counts against the
header, builds the view size, and reads the command data. -/
def from_svgcom_str (source : String) : ParseResult :=
  let lines := rustLines source
  if lines.length < 3 then .error .tooFewLines
  else
    match parse_svgcom_metrics (lines.getD 0 []) with
    | .error e => .error e
    | .ok metrics =>
      let commands := parse_svgcom_commands (lines.getD 1 [])
      match parse_svgcom_coords (lines.getD 2 []) with
      | .error e => .error e
      | .ok coords =>
        match validate_svgcom_metrics metrics commands coords with
        | .error e => .error e
        | .ok _ =>
          let me := SvgCom.new (metrics.getD 0 0 : ℕ) (metrics.getD 1 0 : ℕ)
          match read_svgcom_data commands coords with
          | .panicked => .panicked
          | .err c => .error (.invalidCommand c)
          | .ok els => .ok { me with commands := els }

/-! ### Serialization (`SvgCom::format_svgcom`) -/

/-- Worker producing the decimal digits of `n` (most significant first);
`fuel ≥ n` suffices. -/
def natDecGo : ℕ → ℕ → List Char
  | 0, _ => []
  | fuel + 1, n =>
    if n = 0 then []
    else natDecGo fuel (n / 10) ++ [Char.ofNat (48 + n % 10)]

/-- Decimal representation of a natural number, as Rust's `Display`
prints `u32`/`usize` values. -/
def natDecChars (n : ℕ) : List Char :=
  if n = 0 then ['0'] else natDecGo n n

/-- The least `k ≤ fuel + start` (searched upward from `start`) with
`d ∣ 10 ^ k`. -/
def decExpGo (d : ℕ) : ℕ → ℕ → ℕ
  | 0, k => k
  | fuel + 1, k => if d ∣ 10 ^ k then k else decExpGo d fuel (k + 1)

/-- The least decimal exponent `k` with `den ∣ 10 ^ k`; meaningful whenever
`den` has only the prime factors 2 and 5 (true of every finite `f64`). -/
def decExp (den : ℕ) : ℕ := decExpGo den (den + 1) 0

/-- Decimal rendering of a nonnegative rational with 10-smooth denominator:
the exact finite decimal expansion without trailing fractional zeros,
matching Rust's shortest-roundtrip `Display` of the corresponding exact
`f64` value. -/
def fmtNonnegF64 (n d : ℕ) : List Char :=
  let k := decExp d
  let m := n * (10 ^ k / d)
  if k = 0 then natDecChars m
  else
    natDecChars (m / 10 ^ k) ++ '.' ::
      (List.replicate (k - (natDecChars (m % 10 ^ k)).length) '0' ++
        natDecChars (m % 10 ^ k))

/-- Models Rust's `Display` for the `f64` values occurring here (finite,
written in plain decimal notation). -/
def fmtF64 (q : ℚ) : List Char :=
  if q < 0 then '-' :: fmtNonnegF64 q.num.natAbs q.den
  else fmtNonnegF64 q.num.natAbs q.den

/-- Coordinate demand of one element, as both the reader and the writer
walk it: one point for `M`/`L`, three for `C`, none for `Z`. -/
def PathEl.points_count : PathEl → ℕ
  | .moveTo _ => 1
  | .lineTo _ => 1
  | .curveTo _ _ _ => 3
  | .closePath => 0

/-- Embeds `SvgCom::points_count`. -/
def SvgCom.points_count (sc : SvgCom) : ℕ :=
  (sc.commands.map PathEl.points_count).sum

/-- Embeds `SvgCom::coordinates_count`. -/
def SvgCom.coordinates_count (sc : SvgCom) : ℕ := sc.points_count * 2

/-- The flat coordinate stream of an element, in writing order. -/
def PathEl.coordsOf : PathEl → List ℚ
  | .moveTo p => [p.x, p.y]
  | .lineTo p => [p.x, p.y]
  | .curveTo p1 p2 p3 => [p1.x, p1.y, p2.x, p2.y, p3.x, p3.y]
  | .closePath => []

/-- The flat coordinate stream of a command list. -/
def coordsOfEls (els : List PathEl) : List ℚ := els.flatMap PathEl.coordsOf

/-- Embeds `SvgCom::format_svgcom_metrics`: the header line. -/
def format_svgcom_metrics (sc : SvgCom) : List Char :=
  natDecChars sc.view_size.width ++ ' ' :: natDecChars sc.view_size.height ++
    ' ' :: natDecChars sc.commands.length ++ ' ' :: natDecChars sc.coordinates_count ++ ['\n']

/-- The command letter of an element. -/
def PathEl.letter : PathEl → Char
  | .moveTo _ => 'M'
  | .lineTo _ => 'L'
  | .curveTo _ _ _ => 'C'
  | .closePath => 'Z'

/-- Embeds `SvgCom::format_svgcom_commands`: the letters line. -/
def format_svgcom_commands (sc : SvgCom) : List Char :=
  sc.commands.map PathEl.letter ++ ['\n']

/-- The space-separated coordinate text of one element (empty for `Z`). -/
def PathEl.coordChars (el : PathEl) : List Char :=
  match el.coordsOf with
  | [] => []
  | q :: qs => fmtF64 q ++ (qs.flatMap (fun r => ' ' :: fmtF64 r))

/-- Embeds `SvgCom::format_svgcom_points`: elements separated by single
spaces (a `Z` contributes an empty group, so neighbouring groups may be
separated by extra spaces, exactly as the source writes them). -/
def format_svgcom_points (sc : SvgCom) : List Char :=
  (sc.commands.enum.flatMap
    (fun iel => (if iel.1 = 0 then [] else [' ']) ++ iel.2.coordChars)) ++ ['\n']

/-- Embeds `SvgCom::format_svgcom` / `to_svgcom`: the three-line text. -/
def to_svgcom (sc : SvgCom) : String :=
  ⟨format_svgcom_metrics sc ++ format_svgcom_commands sc ++ format_svgcom_points sc⟩

/-! ## Specification-side definitions

The following definitions restate parts of the specification's wording (not
the source) and are only used inside theorem statements, to compare the
embedded code against the spec. -/

/-- Spec-side: each path of the working list paired with its z-index, the
number of source-node changes up to and including it ("the least index of
shapes that can cover the paths left"). -/
def zScan : List Path → ℕ → SvgPathNode → List (ℕ × Path)
  | [], _, _ => []
  | p :: rest, z, last =>
    let z' := zStep last p.source z
    (z', p) :: zScan rest z' p.source

/-- Spec-side: the z-indexed working list (first path at z-index 0). -/
def zIndexed (paths : List Path) : List (ℕ × Path) :=
  match paths with
  | [] => []
  | p0 :: _ => zScan paths 0 p0.source

/-- Spec-side: a fragment at z-index `z` is covered when some covering
shape of a strictly later path (shapes exist only for paths that can
cover) covers the representative point — the midpoint (`eval(0.5)`) of the
fragment's middle segment, the one at index `len / 2` — the fragment's
source being a different node and the fragment being nonempty. -/
def coveredByLaterSpec (K : KurboOracle) (shapes : List (Option CoveringShape))
    (z : ℕ) (p : Path) : Bool :=
  (shapes.drop (z + 1)).any
    (fun shape => match shape with
      | none => false
      | some s =>
        ! nodeEq p.source s.source && ! p.segments.isEmpty &&
          s.covers_point K
            ((p.segments.getD (p.segments.length / 2) PathSeg.dflt).evalAt (1 / 2)))

/-- Spec-side: the consecutive parameter windows `[0,t1], [t1,t2], …,
[tk,1]` determined by a record list. -/
def paramWindows (ts : List ℚ) : List (ℚ × ℚ) :=
  (0 :: ts).zip (ts ++ [1])

/-- Number of sub-path boundaries `cut_path` opens at segment index `i`. -/
def cutCountAt (ints : PathIntersections) (i : ℕ) : ℕ :=
  if piContains ints i then (piFind ints i).length else 0

/-- The fragments `cut_path` emits for one enumerated segment. -/
def cutPiecesAt (ints : PathIntersections) (is : ℕ × PathSeg) : List PathSeg :=
  if piContains ints is.1 then cut_segment is.2 (piFind ints is.1) else [is.2]

/-- Spec-side: total coordinate demand of a command-letter line (2 floats
per `M`/`L`, 6 per `C`). -/
def neededCoords (commands : List Char) : ℕ :=
  (commands.map (fun c =>
    if c = 'M' then 2 else if c = 'L' then 2 else if c = 'C' then 6 else 0)).sum

/-- Spec-side: the conditions under which svgcom parsing yields a value:
at least three lines; a metrics line of exactly four `u32` tokens; a
coordinate line of float tokens; counts matching the header; all command
letters in `{M, L, C, Z}`; and enough coordinates for the commands. -/
def wellFormedSvgcom (s : String) : Prop :=
  ∃ metrics coords,
    3 ≤ (rustLines s).length ∧
    parse_svgcom_metrics ((rustLines s).getD 0 []) = .ok metrics ∧
    parse_svgcom_coords ((rustLines s).getD 2 []) = .ok coords ∧
    ((rustLines s).getD 1 []).length = metrics.getD 2 0 ∧
    coords.length = metrics.getD 3 0 ∧
    (∀ c ∈ (rustLines s).getD 1 [], c ∈ (['M', 'L', 'C', 'Z'] : List Char)) ∧
    neededCoords ((rustLines s).getD 1 []) ≤ coords.length

/-! ## Concrete instances used by counterexamples and witnesses -/

/-- An oracle whose cubic routines are never consulted by the line-only
concrete instances below. -/
def K0 : KurboOracle :=
  ⟨fun _ _ => [], fun _ => ⟨0, 0, 0, 0⟩, fun _ _ => 0, fun _ _ => []⟩

/-- A stroke-only open polyline node (no fill, not closed). -/
def nodeA : SvgPathNode := ⟨0, [.moveTo, .lineTo], none⟩

/-- A closed, nonzero-filled square node, drawn after `nodeA` in the
two-path scenes below. -/
def nodeB : SvgPathNode := ⟨1, [.moveTo, .lineTo, .lineTo, .lineTo, .closePath], some .nonzero⟩

/-- A horizontal stroke strictly inside the square `squareSegs`. -/
def pathA : Path := ⟨nodeA, [.line ⟨⟨2, 5⟩, ⟨8, 5⟩⟩]⟩

/-- The counter-clockwise boundary of the square `[0,10] × [0,10]`. -/
def squareSegs : List PathSeg :=
  [.line ⟨⟨0, 0⟩, ⟨10, 0⟩⟩, .line ⟨⟨10, 0⟩, ⟨10, 10⟩⟩,
   .line ⟨⟨10, 10⟩, ⟨0, 10⟩⟩, .line ⟨⟨0, 10⟩, ⟨0, 0⟩⟩]

/-- The filled square path. -/
def pathB : Path := ⟨nodeB, squareSegs⟩

/-- The square's covering shape (the value of `CoveringShape::new pathB`). -/
def shapeB : CoveringShape := ⟨nodeB, squareSegs⟩

/-- A two-segment fragment whose first segment's midpoint lies inside the
square while its middle segment's (index `2 / 2 = 1`) midpoint lies
outside. -/
def pathF : Path := ⟨nodeA, [.line ⟨⟨2, 5⟩, ⟨8, 5⟩⟩, .line ⟨⟨8, 5⟩, ⟨20, 5⟩⟩]⟩

/-- An oracle whose cubic bounding boxes are degenerate (a single point),
so that any two cubic boxes fail the strict overlap test; used to witness
the bounding-box pruning theorem. -/
def KdegBox : KurboOracle :=
  ⟨fun _ _ => [], fun c => ⟨c.p0.x, c.p0.y, c.p0.x, c.p0.y⟩, fun _ _ => 0, fun _ _ => []⟩

/-- A concrete cubic segment. -/
def cubX : CubicBez := ⟨⟨0, 0⟩, ⟨1, 1⟩, ⟨2, 1⟩, ⟨3, 0⟩⟩

/-- Another concrete cubic segment. -/
def cubY : CubicBez := ⟨⟨0, 4⟩, ⟨1, 5⟩, ⟨2, 5⟩, ⟨3, 4⟩⟩

/-! # Theorems

General lemmas about the embedded operations, followed by one theorem per
claim (with witnesses and counterexamples where required). -/

/-! ## Sub-segment extraction -/

theorem startPoint_subsegment (s : PathSeg) (a b : ℚ) :
    (s.subsegment a b).startPoint = s.evalAt a := by
  cases s <;> simp [PathSeg.subsegment, PathSeg.startPoint, PathSeg.evalAt,
    Line.subsegment, CubicBez.subsegment]

theorem endPoint_subsegment (s : PathSeg) (a b : ℚ) :
    (s.subsegment a b).endPoint = s.evalAt b := by
  cases s <;> simp [PathSeg.subsegment, PathSeg.endPoint, PathSeg.evalAt,
    Line.subsegment, CubicBez.subsegment]

theorem subsegment_zero_one (s : PathSeg) : s.subsegment 0 1 = s := by
  cases s with
  | line l =>
    simp only [PathSeg.subsegment, Line.subsegment, Line.evalAt]
    congr 1
    ext <;> ring
  | cubic c =>
    simp only [PathSeg.subsegment, CubicBez.subsegment, CubicBez.evalAt, CubicBez.derivEval]
    congr 1
    ext <;> ring

/-! ## Cutting one segment -/

theorem cutSegmentGo_eq_windows (seg : PathSeg) (ts : List LineIntersection) :
    ∀ a : ℚ, cutSegmentGo seg a ts =
      ((a :: ts.map LineIntersection.segment_t).zip
        (ts.map LineIntersection.segment_t ++ [1])).map
          (fun w => seg.subsegment w.1 w.2) := by
  induction ts with
  | nil => intro a; simp [cutSegmentGo]
  | cons i rest ih => intro a; simp [cutSegmentGo, ih]

theorem cut_segment_eq_windows (seg : PathSeg) (ts : List LineIntersection) :
    cut_segment seg ts =
      (paramWindows (ts.map LineIntersection.segment_t)).map
        (fun w => seg.subsegment w.1 w.2) := by
  simp [cut_segment, paramWindows, cutSegmentGo_eq_windows]

theorem cut_segment_length (seg : PathSeg) (ts : List LineIntersection) :
    (cut_segment seg ts).length = ts.length + 1 := by
  simp [cut_segment_eq_windows, paramWindows]

theorem cut_segment_ne_nil (seg : PathSeg) (ts : List LineIntersection) :
    cut_segment seg ts ≠ [] := by
  intro h
  have := cut_segment_length seg ts
  simp [h] at this

theorem cutSegmentGo_chain (seg : PathSeg) (ts : List LineIntersection) :
    ∀ a : ℚ, List.Chain' (fun x y => x.endPoint = y.startPoint) (cutSegmentGo seg a ts) := by
  induction ts with
  | nil => intro a; simp [cutSegmentGo]
  | cons i rest ih =>
    intro a
    rw [cutSegmentGo, List.chain'_cons']
    refine ⟨?_, ih i.segment_t⟩
    intro y hy
    cases rest with
    | nil =>
      simp [cutSegmentGo] at hy
      subst hy
      rw [startPoint_subsegment, endPoint_subsegment]
    | cons j rest' =>
      simp [cutSegmentGo] at hy
      subst hy
      rw [startPoint_subsegment, endPoint_subsegment]

theorem cut_segment_chain (seg : PathSeg) (ts : List LineIntersection) :
    List.Chain' (fun x y => x.endPoint = y.startPoint) (cut_segment seg ts) :=
  cutSegmentGo_chain seg ts 0

theorem cutSegmentGo_head (seg : PathSeg) (ts : List LineIntersection) (a : ℚ) :
    (cutSegmentGo seg a ts).head?.map PathSeg.startPoint = some (seg.evalAt a) := by
  cases ts <;> simp [cutSegmentGo, startPoint_subsegment]

theorem cutSegmentGo_last (seg : PathSeg) (ts : List LineIntersection) :
    ∀ a : ℚ, (cutSegmentGo seg a ts).getLast?.map PathSeg.endPoint = some (seg.evalAt 1) := by
  induction ts with
  | nil => intro a; simp [cutSegmentGo, endPoint_subsegment]
  | cons i rest ih =>
    intro a
    have h := ih i.segment_t
    rw [cutSegmentGo]
    cases hr : cutSegmentGo seg i.segment_t rest with
    | nil =>
      exact absurd hr (by cases rest <;> simp [cutSegmentGo])
    | cons b l =>
      rw [List.getLast?_cons_cons]
      rw [hr] at h
      exact h

/-! ## The intersection map -/

theorem piFind_eq_nil_of_not_contains (m : PathIntersections) (i : ℕ)
    (h : piContains m i = false) : piFind m i = [] := by
  unfold piFind
  have : m.find? (fun e => e.1 == i) = none := by
    rw [List.find?_eq_none]
    intro e he
    intro hbeq
    have : m.any (fun e => e.1 == i) = true := List.any_of_mem he hbeq
    rw [piContains] at h
    simp [this] at h
  rw [this]

/-! ## Cutting one path -/

theorem modifyLast_length (f : Path → Path) (l : List Path) :
    (modifyLast f l).length = l.length := by
  induction l with
  | nil => simp [modifyLast]
  | cons p rest ih =>
    cases rest with
    | nil => simp [modifyLast]
    | cons q rest' => simpa [modifyLast] using ih

theorem modifyLast_ne_nil (f : Path → Path) (l : List Path) (h : l ≠ []) :
    modifyLast f l ≠ [] := by
  intro hc
  have := modifyLast_length f l
  rw [hc] at this
  simp at this
  exact h (List.length_eq_zero.mp this.symm)

theorem pushSeg_length (sps : List Path) (s : PathSeg) :
    (pushSeg sps s).length = sps.length := modifyLast_length _ _

theorem pushSeg_ne_nil (sps : List Path) (s : PathSeg) (h : sps ≠ []) :
    pushSeg sps s ≠ [] := modifyLast_ne_nil _ _ h

theorem pushSeg_flat (s : PathSeg) :
    ∀ sps : List Path, sps ≠ [] →
      (pushSeg sps s).flatMap Path.segments = sps.flatMap Path.segments ++ [s] := by
  intro sps
  induction sps with
  | nil => intro h; exact absurd rfl h
  | cons p rest ih =>
    intro _
    cases rest with
    | nil => simp [pushSeg, modifyLast]
    | cons q rest' =>
      have := ih (by simp)
      simp only [pushSeg, modifyLast] at this ⊢
      simp [this]

theorem tailFold_flat (src : SvgPathNode) :
    ∀ (others : List PathSeg) (sps : List Path), sps ≠ [] →
      ((others.foldl (fun acc s => pushSeg (acc ++ [Path.new src]) s) sps).flatMap
          Path.segments = sps.flatMap Path.segments ++ others
        ∧ (others.foldl (fun acc s => pushSeg (acc ++ [Path.new src]) s) sps).length
          = sps.length + others.length
        ∧ others.foldl (fun acc s => pushSeg (acc ++ [Path.new src]) s) sps ≠ []) := by
  intro others
  induction others with
  | nil => intro sps h; simp [h]
  | cons s rest ih =>
    intro sps h
    have hne : sps ++ [Path.new src] ≠ [] := by simp
    have h1 : pushSeg (sps ++ [Path.new src]) s ≠ [] := pushSeg_ne_nil _ _ hne
    obtain ⟨f1, f2, f3⟩ := ih (pushSeg (sps ++ [Path.new src]) s) h1
    refine ⟨?_, ?_, by simpa using f3⟩
    · rw [List.foldl_cons, f1, pushSeg_flat _ _ hne]
      simp [Path.new]
    · rw [List.foldl_cons, f2, pushSeg_length]
      simp
      omega

theorem cutPathStep_props (src : SvgPathNode) (ints : PathIntersections)
    (sps : List Path) (is : ℕ × PathSeg) (h : sps ≠ []) :
    (cutPathStep src ints sps is).flatMap Path.segments
        = sps.flatMap Path.segments ++ cutPiecesAt ints is
      ∧ (cutPathStep src ints sps is).length = sps.length + cutCountAt ints is.1
      ∧ cutPathStep src ints sps is ≠ [] := by
  by_cases hc : piContains ints is.1
  · have hpieces := cut_segment_ne_nil is.2 (piFind ints is.1)
    obtain ⟨p0, prest, hps⟩ : ∃ p0 prest, cut_segment is.2 (piFind ints is.1) = p0 :: prest := by
      cases hcs : cut_segment is.2 (piFind ints is.1) with
      | nil => exact absurd hcs hpieces
      | cons a b => exact ⟨a, b, rfl⟩
    have hlen : prest.length = (piFind ints is.1).length := by
      have := cut_segment_length is.2 (piFind ints is.1)
      rw [hps] at this
      simpa using this
    have hsps1 : pushSeg sps p0 ≠ [] := pushSeg_ne_nil _ _ h
    obtain ⟨f1, f2, f3⟩ := tailFold_flat src prest (pushSeg sps p0) hsps1
    unfold cutPathStep
    simp only [hc, not_true_eq_false, if_false, hps, List.head?_cons, List.tail_cons]
    refine ⟨?_, ?_, f3⟩
    · rw [f1, pushSeg_flat _ _ h, cutPiecesAt, if_pos hc, hps]
      simp
    · rw [f2, pushSeg_length, cutCountAt, if_pos hc, hlen]
  · unfold cutPathStep
    rw [if_pos hc]
    refine ⟨?_, ?_, pushSeg_ne_nil _ _ h⟩
    · rw [pushSeg_flat _ _ h, cutPiecesAt, if_neg hc]
    · rw [pushSeg_length, cutCountAt, if_neg hc]
      simp

theorem cutPath_foldl_props (src : SvgPathNode) (ints : PathIntersections) :
    ∀ (l : List (ℕ × PathSeg)) (sps : List Path), sps ≠ [] →
      (l.foldl (cutPathStep src ints) sps).flatMap Path.segments
          = sps.flatMap Path.segments ++ l.flatMap (cutPiecesAt ints)
        ∧ (l.foldl (cutPathStep src ints) sps).length
          = sps.length + (l.map (fun is => cutCountAt ints is.1)).sum
        ∧ l.foldl (cutPathStep src ints) sps ≠ [] := by
  intro l
  induction l with
  | nil => intro sps h; simp [h]
  | cons is rest ih =>
    intro sps h
    obtain ⟨s1, s2, s3⟩ := cutPathStep_props src ints sps is h
    obtain ⟨f1, f2, f3⟩ := ih (cutPathStep src ints sps is) s3
    refine ⟨?_, ?_, f3⟩
    · rw [List.foldl_cons, f1, s1]
      simp
    · rw [List.foldl_cons, f2, s2]
      simp
      omega

theorem list_range_sum_ite (n j c : ℕ) (h : j < n) :
    ((List.range n).map (fun i => if i = j then c else 0)).sum = c := by
  induction n with
  | zero => omega
  | succ m ih =>
    rw [List.range_succ]
    rcases Nat.lt_succ_iff_lt_or_eq.mp h with h' | h'
    · simp [ih h', Nat.ne_of_gt h']
    · subst h'
      have : ((List.range j).map (fun i => if i = j then c else 0)).sum = 0 := by
        rw [List.sum_eq_zero]
        intro x hx
        simp only [List.mem_map, List.mem_range] at hx
        obtain ⟨i, hi, rfl⟩ := hx
        simp [Nat.ne_of_lt hi]
      simp [this]

theorem list_map_sum_add (l : List ℕ) (f g : ℕ → ℕ) :
    (l.map (fun i => f i + g i)).sum = (l.map f).sum + (l.map g).sum := by
  induction l with
  | nil => simp
  | cons a rest ih => simp [ih]; omega

theorem sum_cutCount_range (ints : PathIntersections) (n : ℕ)
    (hvalid : ∀ e ∈ ints, e.1 < n) (hnodup : (ints.map Prod.fst).Nodup) :
    ((List.range n).map (cutCountAt ints)).sum = (ints.map (fun e => e.2.length)).sum := by
  induction ints with
  | nil =>
    rw [List.sum_eq_zero]
    · simp
    · intro x hx
      simp only [List.mem_map] at hx
      obtain ⟨i, _, rfl⟩ := hx
      simp [cutCountAt, piContains]
  | cons e rest ih =>
    have hkey : e.1 < n := hvalid e (by simp)
    have hrestvalid : ∀ x ∈ rest, x.1 < n := fun x hx => hvalid x (by simp [hx])
    have hnotin : ∀ x ∈ rest, x.1 ≠ e.1 := by
      intro x hx
      simp only [List.map_cons, List.nodup_cons] at hnodup
      intro hcon
      exact hnodup.1 (hcon ▸ List.mem_map_of_mem Prod.fst hx)
    have hrestnodup : (rest.map Prod.fst).Nodup := by
      simp only [List.map_cons, List.nodup_cons] at hnodup
      exact hnodup.2
    have hrest_not_contains : piContains rest e.1 = false := by
      rw [piContains]
      simp only [List.any_eq_false]
      intro x hx
      simpa using hnotin x hx
    have hsplit : ∀ i, cutCountAt (e :: rest) i
        = (if i = e.1 then e.2.length else 0) + cutCountAt rest i := by
      intro i
      by_cases hie : i = e.1
      · subst hie
        have hfind : piFind (e :: rest) e.1 = e.2 := by
          simp [piFind, List.find?_cons_of_pos]
        have hcont : piContains (e :: rest) e.1 = true := by
          simp [piContains]
        have hzero : cutCountAt rest e.1 = 0 := by
          rw [cutCountAt, if_neg]
          simp [hrest_not_contains]
        rw [hzero, cutCountAt, if_pos (by simp [hcont]), hfind]
        simp
      · have hne : (e.1 == i) = false := by
          simp [Ne.symm hie]
        have h1 : piContains (e :: rest) i = piContains rest i := by
          simp [piContains, hne]
        have h2 : piFind (e :: rest) i = piFind rest i := by
          rw [piFind, piFind, List.find?_cons_of_neg]
          simp [hne]
        rw [if_neg hie, cutCountAt, cutCountAt, h1, h2]
        simp
    calc ((List.range n).map (cutCountAt (e :: rest))).sum
        = ((List.range n).map (fun i =>
            (if i = e.1 then e.2.length else 0) + cutCountAt rest i)).sum := by
          congr 1
          exact List.map_congr_left (fun i _ => hsplit i)
      _ = e.2.length + ((List.range n).map (cutCountAt rest)).sum := by
          rw [list_map_sum_add, list_range_sum_ite n e.1 e.2.length hkey]
      _ = (List.map (fun e => e.2.length) (e :: rest)).sum := by
          rw [ih hrestvalid hrestnodup]
          simp

/-- C4: for every path and every well-formed intersection map (keys are
distinct valid segment indices, each bucket pre-sorted ascending by
parameter) with `k` records in total, `cut_path` produces exactly `1 + k`
sub-paths; concatenating all sub-paths' segments in output order yields,
segment by segment, exactly the sub-segments over the consecutive parameter
windows `[0,t1], [t1,t2], …, [tk,1]` of each original segment; and the
fragments of each original segment chain continuously from its `eval 0` to
its `eval 1`. -/
theorem claim4_cut_completeness (path : Path) (ints : PathIntersections)
    (hvalid : ∀ e ∈ ints, e.1 < path.segments.length)
    (hnodup : (ints.map Prod.fst).Nodup)
    (_hsorted : ∀ e ∈ ints,
      List.Pairwise (fun a b => a.segment_t ≤ b.segment_t) e.2) :
    (cut_path path ints).length = 1 + (ints.map (fun e => e.2.length)).sum
    ∧ (cut_path path ints).flatMap Path.segments
        = path.segments.enum.flatMap (fun is =>
            (paramWindows ((piFind ints is.1).map LineIntersection.segment_t)).map
              (fun w => is.2.subsegment w.1 w.2))
    ∧ ∀ is ∈ path.segments.enum,
        List.Chain' (fun x y => x.endPoint = y.startPoint)
          (cut_segment is.2 (piFind ints is.1))
        ∧ (cut_segment is.2 (piFind ints is.1)).head?.map PathSeg.startPoint
            = some (is.2.evalAt 0)
        ∧ (cut_segment is.2 (piFind ints is.1)).getLast?.map PathSeg.endPoint
            = some (is.2.evalAt 1) := by
  have base : ([Path.new path.source] : List Path) ≠ [] := by simp
  obtain ⟨f1, f2, f3⟩ :=
    cutPath_foldl_props path.source ints path.segments.enum [Path.new path.source] base
  refine ⟨?_, ?_, ?_⟩
  · rw [cut_path, f2]
    have hmap : path.segments.enum.map (fun is => cutCountAt ints is.1)
        = (List.range path.segments.length).map (cutCountAt ints) := by
      rw [← List.enum_map_fst path.segments, List.map_map]
      rfl
    rw [hmap, sum_cutCount_range ints _ hvalid hnodup]
    simp
  · rw [cut_path, f1]
    have hpt : ∀ is ∈ path.segments.enum, cutPiecesAt ints is
        = (paramWindows ((piFind ints is.1).map LineIntersection.segment_t)).map
            (fun w => is.2.subsegment w.1 w.2) := by
      intro is _
      by_cases hc : piContains ints is.1
      · rw [cutPiecesAt, if_pos hc, cut_segment_eq_windows]
      · rw [cutPiecesAt, if_neg hc,
          piFind_eq_nil_of_not_contains _ _ (by simpa using hc)]
        simp [paramWindows, subsegment_zero_one]
    rw [List.flatMap_def, List.flatMap_def, List.map_congr_left hpt]
    simp [Path.new, List.flatMap_def]
  · intro is _
    exact ⟨cut_segment_chain _ _, cutSegmentGo_head _ _ 0, cutSegmentGo_last _ _ 0⟩

/-- Witness for C4 at a concrete two-segment path cut once at `t = 1/2` on
segment 0: the hypotheses hold and the theorem applies. -/
theorem claim4_witness :
    ((∀ e ∈ ([(0, [⟨(1 : ℚ) / 3, 1 / 2⟩])] : PathIntersections),
        e.1 < (⟨nodeA, [.line ⟨⟨0, 0⟩, ⟨4, 0⟩⟩, .line ⟨⟨4, 0⟩, ⟨4, 4⟩⟩]⟩ : Path).segments.length)
      ∧ (([(0, [⟨(1 : ℚ) / 3, 1 / 2⟩])] : PathIntersections).map Prod.fst).Nodup
      ∧ (∀ e ∈ ([(0, [⟨(1 : ℚ) / 3, 1 / 2⟩])] : PathIntersections),
          List.Pairwise (fun a b => a.segment_t ≤ b.segment_t) e.2))
    ∧ (cut_path ⟨nodeA, [.line ⟨⟨0, 0⟩, ⟨4, 0⟩⟩, .line ⟨⟨4, 0⟩, ⟨4, 4⟩⟩]⟩
          [(0, [⟨(1 : ℚ) / 3, 1 / 2⟩])]).length
        = 1 + (([(0, [⟨(1 : ℚ) / 3, 1 / 2⟩])] : PathIntersections).map
            (fun e => e.2.length)).sum := by
  have h1 : ∀ e ∈ ([(0, [⟨(1 : ℚ) / 3, 1 / 2⟩])] : PathIntersections),
      e.1 < (⟨nodeA, [.line ⟨⟨0, 0⟩, ⟨4, 0⟩⟩, .line ⟨⟨4, 0⟩, ⟨4, 4⟩⟩]⟩ : Path).segments.length := by
    intro e he
    simp at he
    subst he
    simp
  have h2 : (([(0, [⟨(1 : ℚ) / 3, 1 / 2⟩])] : PathIntersections).map Prod.fst).Nodup := by
    simp
  have h3 : ∀ e ∈ ([(0, [⟨(1 : ℚ) / 3, 1 / 2⟩])] : PathIntersections),
      List.Pairwise (fun a b => a.segment_t ≤ b.segment_t) e.2 := by
    intro e he
    simp at he
    subst he
    simp
  exact ⟨⟨h1, h2, h3⟩,
    (claim4_cut_completeness ⟨nodeA, [.line ⟨⟨0, 0⟩, ⟨4, 0⟩⟩, .line ⟨⟨4, 0⟩, ⟨4, 4⟩⟩]⟩
      [(0, [⟨(1 : ℚ) / 3, 1 / 2⟩])] h1 h2 h3).1⟩

/-! ## The coverage pass -/

theorem list_all_congr {α : Type} (l : List α) (f g : α → Bool)
    (h : ∀ a ∈ l, f a = g a) : l.all f = l.all g := by
  induction l with
  | nil => rfl
  | cons a rest ih =>
    simp only [List.all_cons, h a (by simp), ih (fun x hx => h x (by simp [hx]))]

theorem bool_all_not_any {α : Type} (l : List α) (f : α → Bool) :
    (l.all fun x => ! f x) = ! l.any f := by
  induction l with
  | nil => simp
  | cons a rest ih => simp [ih]

theorem is_covered_by_eq (K : KurboOracle) (p : Path) (s : CoveringShape) :
    p.is_covered_by K s
      = (! nodeEq p.source s.source && ! p.segments.isEmpty &&
          s.covers_point K
            ((p.segments.getD (p.segments.length / 2) PathSeg.dflt).evalAt (1 / 2))) := by
  rw [Path.is_covered_by]
  by_cases h1 : nodeEq p.source s.source
  · simp [h1]
  · have h1' : nodeEq p.source s.source = false := by simpa using h1
    by_cases h2 : p.segments.length = 0
    · have : p.segments.isEmpty = true :=
        List.isEmpty_iff.mpr (List.length_eq_zero.mp h2)
      simp [h1', h2, this]
    · have hne : p.segments ≠ [] := fun hc => h2 (by simp [hc])
      have : p.segments.isEmpty = false := by
        cases hE : p.segments.isEmpty
        · rfl
        · exact absurd (List.isEmpty_iff.mp hE) hne
      simp [h1', h2, this]

theorem removeCoveredGo_eq_filter (K : KurboOracle) (shapes : List (Option CoveringShape)) :
    ∀ (l : List Path) (z : ℕ) (last : SvgPathNode),
      removeCoveredGo K shapes l z last
        = ((zScan l z last).filter
            (fun zp => ! coveredByLaterSpec K shapes zp.1 zp.2)).map Prod.snd := by
  intro l
  induction l with
  | nil => intro z last; simp [removeCoveredGo, zScan]
  | cons p rest ih =>
    intro z last
    have hkeep : ∀ z' : ℕ,
        ((shapes.drop (z' + 1)).all
          (fun shape => match shape with
            | none => true
            | some s => ! p.is_covered_by K s))
          = ! coveredByLaterSpec K shapes z' p := by
      intro z'
      rw [coveredByLaterSpec, ← bool_all_not_any]
      apply list_all_congr
      intro os _
      cases os with
      | none => rfl
      | some s => exact congrArg Bool.not (is_covered_by_eq K p s)
    simp only [removeCoveredGo, zScan, hkeep, List.filter_cons]
    cases hcov : coveredByLaterSpec K shapes (zStep last p.source z) p with
    | true => simp [ih, hcov]
    | false => simp [ih, hcov]

/-- C1 holds only with the representative point taken on the middle
segment: `remove_covered_paths`, the culler's discard pass, keeps exactly
the fragments for which no covering shape of a strictly later z-index
(shapes exist only for closed, filled paths) covers the representative
point, the midpoint (`eval(0.5)`) of the fragment's segment at index
`len / 2` — the middle segment, not the first — the coverage test also
requiring a different source node and a nonempty fragment. -/
theorem claim1_representative_point (K : KurboOracle) (paths : List Path)
    (shapes : List (Option CoveringShape)) :
    remove_covered_paths K paths shapes
      = ((zIndexed paths).filter
          (fun zp => ! coveredByLaterSpec K shapes zp.1 zp.2)).map Prod.snd := by
  cases paths with
  | nil => rfl
  | cons p rest =>
    rw [remove_covered_paths, zIndexed]
    exact removeCoveredGo_eq_filter K shapes (p :: rest) 0 p.source

/-- C1 as stated is false: `pathF` is a two-segment fragment whose FIRST
segment's midpoint is covered by the later shape `shapeB` (and the other
discard conditions hold), yet the culler's discard pass keeps the fragment:
the code samples the middle segment (index `len / 2`), whose midpoint lies
outside the shape. -/
theorem claim1_counterexample :
    CoveringShape.covers_point K0 shapeB
        ((pathF.segments.getD 0 PathSeg.dflt).evalAt (1 / 2)) = true
      ∧ nodeEq pathF.source shapeB.source = false
      ∧ pathF.segments ≠ []
      ∧ Path.is_covered_by K0 pathF shapeB = false
      ∧ remove_covered_paths K0 [pathF] [none, some shapeB] = [pathF] := by
  refine ⟨?_, ?_, ?_, ?_, ?_⟩
  · norm_num [pathF, shapeB, nodeB, squareSegs, K0, CoveringShape.covers_point,
      SvgPathNode.test_winding, bezpathWinding, PathSeg.windingAt, Line.windingAt,
      PathSeg.evalAt, Line.evalAt, PathSeg.dflt]
  · norm_num [pathF, shapeB, nodeA, nodeB, nodeEq]
  · simp [pathF]
  · norm_num [Path.is_covered_by, nodeEq, pathF, shapeB, nodeA, nodeB, squareSegs, K0,
      CoveringShape.covers_point, SvgPathNode.test_winding, bezpathWinding,
      PathSeg.windingAt, Line.windingAt, PathSeg.evalAt, Line.evalAt, PathSeg.dflt]
  · norm_num [remove_covered_paths, removeCoveredGo, zStep, nodeEq, pathF, shapeB, nodeA, nodeB,
      squareSegs, K0, Path.is_covered_by, CoveringShape.covers_point,
      SvgPathNode.test_winding, bezpathWinding, PathSeg.windingAt, Line.windingAt,
      PathSeg.evalAt, Line.evalAt, PathSeg.dflt]

/-! ## Retention without intersections -/

/-- C2 holds only for the cutting stage and for singleton inputs: a working
path whose intersection map is empty passes `cut_paths` whole (it is not
cut), and a single path culls to itself; the coverage pass may still
discard an intersection-free path (see the counterexample). -/
theorem claim2_no_intersections_amended :
    (∀ (K : KurboOracle) (p : Path) (precision : ℚ),
      autocut_paths K [p] precision = [p])
    ∧ (∀ (paths : List Path) (intss : List PathIntersections) (p : Path)
        (m : PathIntersections),
        (p, m) ∈ paths.zip intss → piIsEmpty m → p ∈ cut_paths paths intss) := by
  constructor
  · intro K p precision
    have h1 : intersect_paths K [p] precision = [[]] := by
      simp [intersect_paths]
    have h2 : cut_paths [p] [[]] = [p] := by
      simp [cut_paths, piIsEmpty]
    have h3 : nodeEq p.source p.source = true := by
      simp [nodeEq]
    rw [autocut_paths, h1, h2]
    simp [remove_covered_paths, removeCoveredGo, create_covering_shapes, zStep, h3]
  · intro paths intss p m hmem hempty
    rw [cut_paths]
    exact List.mem_flatMap.mpr ⟨(p, m), hmem, by simp [hempty]⟩

/-- C2 as stated is false: `pathA` has no intersections with the later
path `pathB` (its intersection map is empty), yet the culler discards it
entirely — `pathB`'s filled square covers `pathA` without the two ever
crossing. -/
theorem claim2_counterexample :
    intersect_paths K0 [pathA, pathB] (1 / 4) = [[], []]
      ∧ autocut_paths K0 [pathA, pathB] (1 / 4) = [pathB]
      ∧ pathA ∉ autocut_paths K0 [pathA, pathB] (1 / 4) := by
  have h1 : intersect_paths K0 [pathA, pathB] (1 / 4) = [[], []] := by
    norm_num [intersect_paths, get_path_intersections, get_segment_intersection,
      get_line_intersection, PathSeg.intersect_line, lineLineIntersections,
      pathA, pathB, nodeA, nodeB, squareSegs, K0, List.enum, List.enumFrom,
      piInsertOrExtend, sortByT, insertByT]
  have h2 : autocut_paths K0 [pathA, pathB] (1 / 4) = [pathB] := by
    norm_num [autocut_paths, intersect_paths, get_path_intersections, get_segment_intersection,
      get_line_intersection, get_curve_intersection, get_reverse_line_intersection,
      PathSeg.intersect_line, lineLineIntersections, pathA, pathB, nodeA, nodeB, squareSegs, K0,
      cut_paths, cut_path, cutPathStep, piIsEmpty, piContains, piFind, piInsertOrExtend,
      create_covering_shapes, CoveringShape.new, SvgPathNode.can_cover, SvgPathNode.is_closed,
      remove_covered_paths, removeCoveredGo, zStep, nodeEq, Path.is_covered_by,
      CoveringShape.covers_point, SvgPathNode.test_winding, bezpathWinding, PathSeg.windingAt,
      Line.windingAt, PathSeg.evalAt, Line.evalAt, List.enum, List.enumFrom, sortByT, insertByT,
      Path.new, pushSeg, modifyLast, cut_segment, cutSegmentGo]
  refine ⟨h1, h2, ?_⟩
  rw [h2]
  simp [pathA, pathB, nodeA, nodeB]

/-- Witness for C2: both amended parts discharged at `pathA` (a single
stroke, and the singleton zip membership with an empty map). -/
theorem claim2_witness :
    autocut_paths K0 [pathA] 1 = [pathA]
      ∧ (pathA, ([] : PathIntersections)) ∈ [pathA].zip [([] : PathIntersections)]
      ∧ piIsEmpty ([] : PathIntersections) = true
      ∧ pathA ∈ cut_paths [pathA] [[]] :=
  ⟨claim2_no_intersections_amended.1 K0 pathA 1, by simp, by simp [piIsEmpty],
    claim2_no_intersections_amended.2 [pathA] [[]] pathA [] (by simp) (by simp [piIsEmpty])⟩

/-! ## Order sensitivity -/

/-- C5: occlusion follows draw order, not geometric position.  With the
stroke `pathA` drawn before the covering filled square `pathB`, the culler
removes all of `pathA`; with the order reversed, it retains all of
`pathA`. -/
theorem claim5_order_sensitivity :
    autocut_paths K0 [pathA, pathB] (1 / 4) = [pathB]
      ∧ autocut_paths K0 [pathB, pathA] (1 / 4) = [pathB, pathA] := by
  constructor
  · norm_num [autocut_paths, intersect_paths, get_path_intersections, get_segment_intersection,
      get_line_intersection, get_curve_intersection, get_reverse_line_intersection,
      PathSeg.intersect_line, lineLineIntersections, pathA, pathB, nodeA, nodeB, squareSegs, K0,
      cut_paths, cut_path, cutPathStep, piIsEmpty, piContains, piFind, piInsertOrExtend,
      create_covering_shapes, CoveringShape.new, SvgPathNode.can_cover, SvgPathNode.is_closed,
      remove_covered_paths, removeCoveredGo, zStep, nodeEq, Path.is_covered_by,
      CoveringShape.covers_point, SvgPathNode.test_winding, bezpathWinding, PathSeg.windingAt,
      Line.windingAt, PathSeg.evalAt, Line.evalAt, List.enum, List.enumFrom, sortByT, insertByT,
      Path.new, pushSeg, modifyLast, cut_segment, cutSegmentGo]
  · norm_num [autocut_paths, intersect_paths, get_path_intersections, get_segment_intersection,
      get_line_intersection, get_curve_intersection, get_reverse_line_intersection,
      PathSeg.intersect_line, lineLineIntersections, pathA, pathB, nodeA, nodeB, squareSegs, K0,
      cut_paths, cut_path, cutPathStep, piIsEmpty, piContains, piFind, piInsertOrExtend,
      create_covering_shapes, CoveringShape.new, SvgPathNode.can_cover, SvgPathNode.is_closed,
      remove_covered_paths, removeCoveredGo, zStep, nodeEq, Path.is_covered_by,
      CoveringShape.covers_point, SvgPathNode.test_winding, bezpathWinding, PathSeg.windingAt,
      Line.windingAt, PathSeg.evalAt, Line.evalAt, List.enum, List.enumFrom, sortByT, insertByT,
      Path.new, pushSeg, modifyLast, cut_segment, cutSegmentGo]

/-! ## Self-exclusion and the coverage oracle -/

/-- C6: a covering shape never covers a path with the same source
identity — `is_covered_by` short-circuits to `false` whenever the source
nodes are identical, regardless of the geometry (hence of any sampled
point). -/
theorem claim6_self_exclusion (K : KurboOracle) (p : Path) (s : CoveringShape)
    (h : p.source.id = s.source.id) : p.is_covered_by K s = false := by
  rw [Path.is_covered_by, if_pos]
  simp [nodeEq, h]

/-- Witness for C6: a fragment against a shape derived from its own source
node. -/
theorem claim6_witness :
    pathF.source.id = (⟨nodeA, squareSegs⟩ : CoveringShape).source.id
      ∧ Path.is_covered_by K0 pathF ⟨nodeA, squareSegs⟩ = false :=
  ⟨rfl, claim6_self_exclusion K0 pathF ⟨nodeA, squareSegs⟩ rfl⟩

/-- C7: the coverage oracle computes the winding number of the query point
against the shape's contour and applies the fill rule: under `NonZero` the
point is covered iff the winding number is nonzero, under `EvenOdd` iff it
is odd. -/
theorem claim7_fill_rule (K : KurboOracle) (s : CoveringShape) (point : Point)
    (rule : SvgFillRule) (h : s.source.fill = some rule) :
    (rule = SvgFillRule.nonzero →
      (s.covers_point K point = true ↔ bezpathWinding K s.bezpath point ≠ 0))
    ∧ (rule = SvgFillRule.evenodd →
      (s.covers_point K point = true ↔ bezpathWinding K s.bezpath point % 2 ≠ 0)) := by
  constructor
  · rintro rfl
    simp [CoveringShape.covers_point, SvgPathNode.test_winding, h]
  · rintro rfl
    simp [CoveringShape.covers_point, SvgPathNode.test_winding, h]

/-- Witness for C7: the square's shape has the `NonZero` rule and covers
the interior point `(5,5)`, whose winding number is 1. -/
theorem claim7_witness :
    shapeB.source.fill = some SvgFillRule.nonzero
      ∧ (CoveringShape.covers_point K0 shapeB ⟨5, 5⟩ = true
          ↔ bezpathWinding K0 shapeB.bezpath ⟨5, 5⟩ ≠ 0) :=
  ⟨rfl, (claim7_fill_rule K0 shapeB ⟨5, 5⟩ SvgFillRule.nonzero rfl).1 rfl⟩

/-- C10: an unfilled source never reports "inside" for any winding number,
and `CoveringShape::new` returns `None` exactly for paths that are not
both closed and filled or that have no segments. -/
theorem claim10_unfilled_never_covers (p : Path) (w : ℤ) :
    (CoveringShape.new p = none ↔
      (¬ (p.source.is_closed = true ∧ p.source.fill.isSome = true) ∨ p.segments = []))
    ∧ (p.source.fill = none → p.source.test_winding w = false) := by
  constructor
  · rw [CoveringShape.new]
    constructor
    · intro h
      by_cases hc : ¬ p.source.can_cover ∨ p.segments.length = 0
      · rcases hc with hc | hc
        · left
          rintro ⟨h1, h2⟩
          exact hc (by simp [SvgPathNode.can_cover, h1, h2])
        · right
          exact List.length_eq_zero.mp hc
      · rw [if_neg hc] at h
        exact absurd h (by simp)
    · intro h
      rw [if_pos]
      rcases h with h | h
      · left
        intro hcc
        rw [SvgPathNode.can_cover, Bool.and_eq_true] at hcc
        exact h ⟨hcc.1, hcc.2⟩
      · right
        simp [h]
  · intro h
    simp [SvgPathNode.test_winding, h]

/-- Witness for C10: the open unfilled stroke `pathA` yields no covering
shape, and its node's winding test is constantly false. -/
theorem claim10_witness :
    pathA.source.fill = none
      ∧ pathA.source.test_winding 5 = false
      ∧ CoveringShape.new pathA = none :=
  ⟨rfl, (claim10_unfilled_never_covers pathA 5).2 rfl,
    (claim10_unfilled_never_covers pathA 5).1.mpr (Or.inl (by decide))⟩

/-! ## Bounding-box pruning -/

/-- C9 holds only in the cubic-versus-cubic branch: when the intersected
segment is a cubic and the two cubics' bounding boxes fail the strict
overlap test, `get_curve_intersection` returns zero intersections without
reaching the flattening branch.  No bounding-box pruning is applied on the
other code paths (see the counterexample), and the strict test counts
degenerate (zero-width or zero-height) overlaps as "no overlap". -/
theorem claim9_bbox_pruning_amended (K : KurboOracle) (a b : CubicBez) (precision : ℚ)
    (h : bbox_intersect (K.cubicBox a) (K.cubicBox b) = false) :
    get_curve_intersection K (.cubic a) b precision = []
      ∧ curveIntersectionFlattens K (.cubic a) b = false := by
  constructor
  · simp [get_curve_intersection, PathSeg.bounding_box, h]
  · simp [curveIntersectionFlattens, PathSeg.bounding_box, h]

/-- C9 as stated is false for line pairs: a horizontal and a vertical
segment cross at `(5, 0)` (one intersection is computed, at parameter 1/2
on each), yet their axis-aligned bounding boxes are degenerate and fail
the code's overlap test `bbox_intersect`. -/
theorem claim9_counterexample :
    bbox_intersect
        (PathSeg.bounding_box K0 (.line ⟨⟨0, 0⟩, ⟨10, 0⟩⟩))
        (PathSeg.bounding_box K0 (.line ⟨⟨5, -5⟩, ⟨5, 5⟩⟩)) = false
      ∧ get_segment_intersection K0 (.line ⟨⟨0, 0⟩, ⟨10, 0⟩⟩)
          (.line ⟨⟨5, -5⟩, ⟨5, 5⟩⟩) (1 / 4)
        = [⟨1 / 2, 1 / 2⟩] := by
  constructor
  · norm_num [bbox_intersect, PathSeg.bounding_box, rectFromPoints, Rect.intersectR,
      Rect.width, Rect.height, K0]
  · norm_num [get_segment_intersection, get_line_intersection, PathSeg.intersect_line,
      lineLineIntersections, K0]

/-- Witness for C9: two cubics whose (degenerate-box oracle) bounding boxes
fail the overlap test, on which the pruned computation returns nothing and
never flattens. -/
theorem claim9_witness :
    bbox_intersect (KdegBox.cubicBox cubX) (KdegBox.cubicBox cubY) = false
      ∧ get_curve_intersection KdegBox (.cubic cubX) cubY (1 / 4) = []
      ∧ curveIntersectionFlattens KdegBox (.cubic cubX) cubY = false := by
  have h : bbox_intersect (KdegBox.cubicBox cubX) (KdegBox.cubicBox cubY) = false := by
    norm_num [bbox_intersect, KdegBox, cubX, cubY, Rect.intersectR, Rect.width, Rect.height]
  exact ⟨h, (claim9_bbox_pruning_amended KdegBox cubX cubY (1 / 4) h).1,
    (claim9_bbox_pruning_amended KdegBox cubX cubY (1 / 4) h).2⟩

/-! ## Parsing svgcom -/

theorem neededCoords_cons (c : Char) (rest : List Char) :
    neededCoords (c :: rest)
      = (if c = 'M' then 2 else if c = 'L' then 2 else if c = 'C' then 6 else 0)
        + neededCoords rest := by
  simp [neededCoords]

theorem readGo_ok_iff :
    ∀ (cmds : List Char) (coords : List ℚ) (acc : List PathEl),
      (∃ els, readSvgcomDataGo cmds coords acc = .ok els)
        ↔ ((∀ c ∈ cmds, c ∈ (['M', 'L', 'C', 'Z'] : List Char))
            ∧ neededCoords cmds ≤ coords.length) := by
  intro cmds
  induction cmds with
  | nil =>
    intro coords acc
    simp [readSvgcomDataGo, neededCoords]
  | cons c rest ih =>
    intro coords acc
    by_cases hM : c = 'M'
    · subst hM
      rcases coords with _ | ⟨x, _ | ⟨y, r⟩⟩ <;>
        simp [readSvgcomDataGo, takePoint, neededCoords_cons, ih] <;> omega
    · by_cases hL : c = 'L'
      · subst hL
        rcases coords with _ | ⟨x, _ | ⟨y, r⟩⟩ <;>
          simp [readSvgcomDataGo, takePoint, neededCoords_cons, ih] <;> omega
      · by_cases hC : c = 'C'
        · subst hC
          rcases coords with _ | ⟨x1, _ | ⟨y1, _ | ⟨x2, _ | ⟨y2, _ | ⟨x3, _ | ⟨y3, r⟩⟩⟩⟩⟩⟩ <;>
            simp [readSvgcomDataGo, takePoint, neededCoords_cons, ih] <;> omega
        · by_cases hZ : c = 'Z'
          · subst hZ
            simp [readSvgcomDataGo, takePoint, neededCoords_cons, ih]
          · simp [readSvgcomDataGo, hM, hL, hC, hZ, neededCoords_cons]

theorem read_svgcom_data_ok_iff (cmds : List Char) (coords : List ℚ) :
    (∃ els, read_svgcom_data cmds coords = .ok els)
      ↔ ((∀ c ∈ cmds, c ∈ (['M', 'L', 'C', 'Z'] : List Char))
          ∧ neededCoords cmds ≤ coords.length) :=
  readGo_ok_iff cmds coords []

/-- C3 holds only with `Z` added to the accepted letters, the coordinate
line's float parsing added to the failure conditions, and coordinate
underrun separated out: parsing yields a value exactly when the input has
at least 3 lines, the metrics line is exactly 4 unsigned 32-bit integers,
every coordinate token parses as a float, the command-letter and coordinate
counts match the header, every command letter lies in `{M, L, C, Z}`, and
the commands demand no more coordinates than the coordinate line supplies;
a reachable letter outside `{M, L, C, Z}` is a fatal error (never skipped),
while exhausting the coordinates before such a letter panics instead of
returning. -/
theorem claim3_parse_conditions_amended (s : String) :
    (∃ sc, from_svgcom_str s = .ok sc) ↔ wellFormedSvgcom s := by
  by_cases h1 : (rustLines s).length < 3
  · have hfs : from_svgcom_str s = .error .tooFewLines := by
      rw [from_svgcom_str, if_pos h1]
    constructor
    · rintro ⟨sc, hsc⟩
      rw [hfs] at hsc
      simp at hsc
    · rw [wellFormedSvgcom]
      rintro ⟨ms, cs, h3, _⟩
      omega
  · cases hm : parse_svgcom_metrics ((rustLines s).getD 0 []) with
    | error e =>
      have hfs : from_svgcom_str s = .error e := by
        rw [from_svgcom_str, if_neg h1]
        simp only [hm]
      constructor
      · rintro ⟨sc, hsc⟩
        rw [hfs] at hsc
        simp at hsc
      · rw [wellFormedSvgcom]
        rintro ⟨ms, cs, _, hms, _⟩
        rw [hm] at hms
        simp at hms
    | ok ms =>
      cases hcs : parse_svgcom_coords ((rustLines s).getD 2 []) with
      | error e =>
        have hfs : from_svgcom_str s = .error e := by
          rw [from_svgcom_str, if_neg h1]
          simp only [hm, hcs]
        constructor
        · rintro ⟨sc, hsc⟩
          rw [hfs] at hsc
          simp at hsc
        · rw [wellFormedSvgcom]
          rintro ⟨ms', cs, _, _, hcs', _⟩
          rw [hcs] at hcs'
          simp at hcs'
      | ok cs =>
        cases hv : validate_svgcom_metrics ms
            (parse_svgcom_commands ((rustLines s).getD 1 [])) cs with
        | error e =>
          have hfs : from_svgcom_str s = .error e := by
            rw [from_svgcom_str, if_neg h1]
            simp only [hm, hcs, hv]
          have hmismatch :
              ((rustLines s).getD 1 []).length ≠ ms.getD 2 0 ∨ cs.length ≠ ms.getD 3 0 := by
            rw [validate_svgcom_metrics, parse_svgcom_commands] at hv
            by_contra hcon
            rw [if_neg hcon] at hv
            simp at hv
          constructor
          · rintro ⟨sc, hsc⟩
            rw [hfs] at hsc
            simp at hsc
          · rw [wellFormedSvgcom]
            rintro ⟨ms', cs', _, hms', hcs', hlen1, hlen2, _⟩
            rw [hm] at hms'
            rw [hcs] at hcs'
            obtain rfl : ms = ms' := by simpa using hms'
            obtain rfl : cs = cs' := by simpa using hcs'
            rcases hmismatch with h | h
            · exact absurd hlen1 h
            · exact absurd hlen2 h
        | ok u =>
          have hmatch :
              ((rustLines s).getD 1 []).length = ms.getD 2 0 ∧ cs.length = ms.getD 3 0 := by
            rw [validate_svgcom_metrics, parse_svgcom_commands] at hv
            by_contra hcon
            rw [if_pos (by tauto)] at hv
            simp at hv
          cases hr : read_svgcom_data (parse_svgcom_commands ((rustLines s).getD 1 [])) cs with
          | ok els =>
            have hfs : from_svgcom_str s
                = .ok { SvgCom.new (ms.getD 0 0 : ℕ) (ms.getD 1 0 : ℕ) with commands := els } := by
              rw [from_svgcom_str, if_neg h1]
              simp only [hm, hcs, hv, hr]
            have hconds := (read_svgcom_data_ok_iff
              (parse_svgcom_commands ((rustLines s).getD 1 [])) cs).mp ⟨els, hr⟩
            rw [parse_svgcom_commands] at hconds
            constructor
            · intro _
              rw [wellFormedSvgcom]
              exact ⟨ms, cs, by omega, hm, hcs, hmatch.1, hmatch.2, hconds.1, hconds.2⟩
            · intro _
              exact ⟨_, hfs⟩
          | err c =>
            have hfs : from_svgcom_str s = .error (.invalidCommand c) := by
              rw [from_svgcom_str, if_neg h1]
              simp only [hm, hcs, hv, hr]
            have hne : ¬ ∃ els,
                read_svgcom_data (parse_svgcom_commands ((rustLines s).getD 1 [])) cs
                  = .ok els := by
              rintro ⟨els, h⟩
              rw [hr] at h
              simp at h
            have hnot := (read_svgcom_data_ok_iff
              (parse_svgcom_commands ((rustLines s).getD 1 [])) cs).not.mp hne
            rw [parse_svgcom_commands] at hnot
            constructor
            · rintro ⟨sc, hsc⟩
              rw [hfs] at hsc
              simp at hsc
            · rw [wellFormedSvgcom]
              rintro ⟨ms', cs', _, hms', hcs', _, _, hlet, hneed⟩
              rw [hm] at hms'
              rw [hcs] at hcs'
              obtain rfl : ms = ms' := by simpa using hms'
              obtain rfl : cs = cs' := by simpa using hcs'
              exact absurd ⟨hlet, hneed⟩ hnot
          | panicked =>
            have hfs : from_svgcom_str s = .panicked := by
              rw [from_svgcom_str, if_neg h1]
              simp only [hm, hcs, hv, hr]
            have hne : ¬ ∃ els,
                read_svgcom_data (parse_svgcom_commands ((rustLines s).getD 1 [])) cs
                  = .ok els := by
              rintro ⟨els, h⟩
              rw [hr] at h
              simp at h
            have hnot := (read_svgcom_data_ok_iff
              (parse_svgcom_commands ((rustLines s).getD 1 [])) cs).not.mp hne
            rw [parse_svgcom_commands] at hnot
            constructor
            · rintro ⟨sc, hsc⟩
              rw [hfs] at hsc
              simp at hsc
            · rw [wellFormedSvgcom]
              rintro ⟨ms', cs', _, hms', hcs', _, _, hlet, hneed⟩
              rw [hm] at hms'
              rw [hcs] at hcs'
              obtain rfl : ms = ms' := by simpa using hms'
              obtain rfl : cs = cs' := by simpa using hcs'
              exact absurd ⟨hlet, hneed⟩ hnot

/-- C3 as stated is false: the input below carries the command letter `Z`,
outside `{M, L, C}`, yet parsing succeeds (the reader also accepts `Z` as
close-path). -/
theorem claim3_counterexample :
    from_svgcom_str "0 0 1 0\nZ\n\n" = .ok ⟨⟨0, 0⟩, [.closePath]⟩
      ∧ 'Z' ∉ (['M', 'L', 'C'] : List Char) := by
  constructor
  · decide
  · decide

/-! ## Decimal round trips -/

theorem parseDigitsGo_append (xs ys : List Char) :
    ∀ acc : ℕ, parseDigitsGo (xs ++ ys) acc
      = match parseDigitsGo xs acc with
        | some a => parseDigitsGo ys a
        | none => none := by
  induction xs with
  | nil => intro acc; simp [parseDigitsGo]
  | cons c rest ih =>
    intro acc
    by_cases hc : isDigitCh c
    · simp [parseDigitsGo, hc, ih]
    · simp [parseDigitsGo, hc]

theorem digit_char_spec (d : ℕ) (h : d < 10) :
    isDigitCh (Char.ofNat (48 + d)) = true ∧ (Char.ofNat (48 + d)).toNat - 48 = d := by
  interval_cases d <;> exact ⟨by decide, by decide⟩

theorem natDecGo_all_digits : ∀ fuel n : ℕ, ∀ c ∈ natDecGo fuel n, isDigitCh c = true := by
  intro fuel
  induction fuel with
  | zero => intro n c hc; simp [natDecGo] at hc
  | succ f ih =>
    intro n c hc
    rw [natDecGo] at hc
    by_cases hn : n = 0
    · simp [hn] at hc
    · rw [if_neg hn] at hc
      rcases List.mem_append.mp hc with h | h
      · exact ih (n / 10) c h
      · have : c = Char.ofNat (48 + n % 10) := by simpa using h
        subst this
        exact (digit_char_spec (n % 10) (Nat.mod_lt n (by omega))).1

theorem natDecChars_all_digits (n : ℕ) : ∀ c ∈ natDecChars n, isDigitCh c = true := by
  intro c hc
  rw [natDecChars] at hc
  by_cases hn : n = 0
  · rw [if_pos hn] at hc
    have : c = '0' := by simpa using hc
    subst this
    decide
  · rw [if_neg hn] at hc
    exact natDecGo_all_digits n n c hc

theorem parseDigitsGo_natDecGo (n : ℕ) :
    ∀ fuel acc : ℕ, n ≤ fuel →
      parseDigitsGo (natDecGo fuel n) acc
        = some (acc * 10 ^ (natDecGo fuel n).length + n) := by
  induction n using Nat.strong_induction_on with
  | _ n ihn =>
    intro fuel acc hfuel
    cases fuel with
    | zero =>
      have : n = 0 := by omega
      subst this
      simp [natDecGo, parseDigitsGo]
    | succ f =>
      rw [natDecGo]
      by_cases hn : n = 0
      · subst hn
        simp [parseDigitsGo]
      · rw [if_neg hn]
        have hd : n / 10 < n := Nat.div_lt_self (by omega) (by omega)
        have hf : n / 10 ≤ f := by omega
        rw [parseDigitsGo_append]
        rw [ihn (n / 10) hd f acc hf]
        have hds := digit_char_spec (n % 10) (Nat.mod_lt n (by omega))
        simp only [parseDigitsGo, hds.1, if_true, hds.2]
        rw [List.length_append]
        have h10 : n = 10 * (n / 10) + n % 10 := (Nat.div_add_mod n 10).symm
        simp only [List.length_cons, List.length_nil]
        congr 1
        rw [pow_succ]
        ring_nf
        omega

theorem natDecChars_ne_nil (n : ℕ) : natDecChars n ≠ [] := by
  rw [natDecChars]
  by_cases hn : n = 0
  · simp [hn]
  · obtain ⟨m, rfl⟩ : ∃ m, n = m + 1 := ⟨n - 1, by omega⟩
    rw [if_neg hn, natDecGo, if_neg hn]
    simp

theorem parseNatDigits_natDecChars (n : ℕ) :
    parseNatDigits (natDecChars n) = some n := by
  by_cases hn : n = 0
  · subst hn
    decide
  · rw [parseNatDigits, if_neg (by simpa [List.isEmpty_iff] using natDecChars_ne_nil n)]
    rw [natDecChars, if_neg hn, parseDigitsGo_natDecGo n n 0 le_rfl]
    simp

theorem rustParseU32_natDecChars (n : ℕ) (h : n < 2 ^ 32) :
    rustParseU32 (natDecChars n) = some n := by
  rw [rustParseU32]
  have hplus : (natDecChars n).head? ≠ some '+' := by
    intro hc
    have hmem : '+' ∈ natDecChars n := by
      cases hcs : natDecChars n with
      | nil => rw [hcs] at hc; simp at hc
      | cons c rest =>
        rw [hcs] at hc
        simp at hc
        simp [hcs, hc]
    exact absurd (natDecChars_all_digits n '+' hmem) (by decide)
  rw [if_neg hplus, parseNatDigits_natDecChars n]
  simp only [if_pos (by exact_mod_cast h)]

theorem decExpGo_dvd (d : ℕ) :
    ∀ (fuel k j : ℕ), k ≤ j → j < k + fuel → d ∣ 10 ^ j → d ∣ 10 ^ decExpGo d fuel k := by
  intro fuel
  induction fuel with
  | zero => intro k j h1 h2 _; omega
  | succ f ih =>
    intro k j h1 h2 hj
    rw [decExpGo]
    by_cases hk : d ∣ 10 ^ k
    · rw [if_pos hk]
      exact hk
    · rw [if_neg hk]
      have hne : j ≠ k := fun hc => hk (hc ▸ hj)
      exact ih (k + 1) j (by omega) (by omega) hj

theorem decExp_dvd (d : ℕ) (h : d ∣ 10 ^ d) : d ∣ 10 ^ decExp d :=
  decExpGo_dvd d (d + 1) 0 d (by omega) (by omega) h

theorem natDecGo_length_le :
    ∀ (fuel n k : ℕ), n < 10 ^ k → (natDecGo fuel n).length ≤ k := by
  intro fuel
  induction fuel with
  | zero => intro n k _; simp [natDecGo]
  | succ f ih =>
    intro n k hn
    rw [natDecGo]
    by_cases h0 : n = 0
    · simp [h0]
    · rw [if_neg h0]
      have hk : k ≠ 0 := by
        intro hc
        subst hc
        simp at hn
        omega
      obtain ⟨k', rfl⟩ : ∃ k', k = k' + 1 := ⟨k - 1, by omega⟩
      have hdiv : n / 10 < 10 ^ k' := by
        rw [pow_succ] at hn
        exact Nat.div_lt_of_lt_mul (by omega)
      have := ih (n / 10) k' hdiv
      simp only [List.length_append, List.length_cons, List.length_nil]
      omega

theorem parseDigitsGo_replicate_zero (z : ℕ) :
    ∀ acc : ℕ, parseDigitsGo (List.replicate z '0') acc = some (acc * 10 ^ z) := by
  induction z with
  | zero => intro acc; simp [parseDigitsGo]
  | succ z' ih =>
    intro acc
    rw [List.replicate_succ, parseDigitsGo]
    rw [if_pos (by decide)]
    rw [ih]
    congr 1
    have : ('0'.toNat - 48) = 0 := by decide
    rw [this]
    rw [pow_succ]
    ring

theorem takeWhile_all_append (p : Char → Bool) :
    ∀ (A : List Char), (∀ a ∈ A, p a = true) → ∀ (c : Char), p c = false → ∀ B,
      (A ++ c :: B).takeWhile p = A ∧ (A ++ c :: B).dropWhile p = c :: B := by
  intro A
  induction A with
  | nil =>
    intro _ c hc B
    simp [List.takeWhile, List.dropWhile, hc]
  | cons a A' ih =>
    intro hA c hc B
    have ha : p a = true := hA a (by simp)
    have hA' : ∀ x ∈ A', p x = true := fun x hx => hA x (by simp [hx])
    obtain ⟨ih1, ih2⟩ := ih hA' c hc B
    constructor
    · simp [List.takeWhile, ha, ih1]
    · simp [List.dropWhile, ha, ih2]

theorem takeWhile_all_self (p : Char → Bool) :
    ∀ (A : List Char), (∀ a ∈ A, p a = true) →
      A.takeWhile p = A ∧ A.dropWhile p = [] := by
  intro A
  induction A with
  | nil => intro _; simp
  | cons a A' ih =>
    intro hA
    have ha : p a = true := hA a (by simp)
    obtain ⟨ih1, ih2⟩ := ih (fun x hx => hA x (by simp [hx]))
    constructor
    · simp [List.takeWhile, ha, ih1]
    · simp [List.dropWhile, ha, ih2]

theorem rat_div_pow_eq (m k n d : ℕ) (hd : d ≠ 0) (hmd : m * d = n * 10 ^ k) :
    ((m : ℚ)) / 10 ^ k = (n : ℚ) / d := by
  rw [div_eq_div_iff (by positivity) (by exact_mod_cast Nat.cast_ne_zero.mpr hd)]
  exact_mod_cast hmd

theorem parseDigitsGo_natDecChars_acc (x : ℕ) :
    ∀ acc : ℕ, parseDigitsGo (natDecChars x) acc
      = some (acc * 10 ^ (natDecChars x).length + x) := by
  intro acc
  rw [natDecChars]
  by_cases hx : x = 0
  · subst hx
    rw [if_pos rfl]
    rw [parseDigitsGo, if_pos (by decide), parseDigitsGo]
    have h0 : '0'.toNat - 48 = 0 := by decide
    rw [h0]
    norm_num
  · rw [if_neg hx]
    exact parseDigitsGo_natDecGo x x acc le_rfl

theorem natDecChars_length_le (x k : ℕ) (h : x < 10 ^ k) (hk : k ≠ 0) :
    (natDecChars x).length ≤ k := by
  rw [natDecChars]
  by_cases hx : x = 0
  · simp [hx]
    omega
  · rw [if_neg hx]
    exact natDecGo_length_le x x k h

theorem fmtNonnegF64_parts (n d : ℕ) (hd : d ≠ 0) (hsm : d ∣ 10 ^ d) :
    rustParseF64core (fmtNonnegF64 n d) = some ((n : ℚ) / d) := by
  have hdvd : d ∣ 10 ^ decExp d := decExp_dvd d hsm
  rw [fmtNonnegF64]
  by_cases hk : decExp d = 0
  · rw [if_pos hk]
    have hd1 : d = 1 := Nat.dvd_one.mp (by simpa [hk] using hdvd)
    subst hd1
    have hm : n * (10 ^ decExp 1 / 1) = n := by simp [hk]
    rw [hm, rustParseF64core]
    obtain ⟨ht, hdrop⟩ :=
      takeWhile_all_self isDigitCh (natDecChars n) (natDecChars_all_digits n)
    simp only [ht, hdrop, if_pos, parseNatDigits_natDecChars n]
    simp
  · rw [if_neg hk]
    set k := decExp d with hkdef
    set m := n * (10 ^ k / d) with hmdef
    have h10 : 10 ^ k / d * d = 10 ^ k := Nat.div_mul_cancel hdvd
    have hmd : m * d = n * 10 ^ k := by
      rw [hmdef, mul_assoc, h10]
    set len := (natDecChars (m % 10 ^ k)).length with hlendef
    have hlen : len ≤ k :=
      natDecChars_length_le (m % 10 ^ k) k (Nat.mod_lt m (by positivity)) hk
    set frac := List.replicate (k - len) '0' ++ natDecChars (m % 10 ^ k) with hfracdef
    have hfracdigits : ∀ c ∈ frac, isDigitCh c = true := by
      intro c hc
      rcases List.mem_append.mp hc with h | h
      · have : c = '0' := List.eq_of_mem_replicate h
        subst this
        decide
      · exact natDecChars_all_digits _ c h
    have hfraclen : frac.length = k := by
      rw [hfracdef]
      simp only [List.length_append, List.length_replicate]
      omega
    have hipdigits := natDecChars_all_digits (m / 10 ^ k)
    obtain ⟨ht, hdrop⟩ := takeWhile_all_append isDigitCh (natDecChars (m / 10 ^ k))
      hipdigits '.' (by decide) frac
    rw [rustParseF64core]
    simp only [ht, hdrop]
    rw [if_neg (by simp)]
    rw [if_pos (by simp)]
    simp only [List.tail_cons]
    rw [if_pos ⟨List.all_eq_true.mpr hfracdigits,
      by simp [List.isEmpty_iff, natDecChars_ne_nil]⟩]
    rw [hfracdef]
    simp only [parseDigitsGo_append, parseDigitsGo_natDecChars_acc,
      parseDigitsGo_replicate_zero, zero_mul, zero_add]
    have hval : m / 10 ^ k * 10 ^ (k - len) * 10 ^ len + m % 10 ^ k = m := by
      rw [mul_assoc, ← pow_add]
      have hkl : k - len + len = k := by omega
      rw [hkl, mul_comm (m / 10 ^ k) (10 ^ k)]
      exact Nat.div_add_mod m (10 ^ k)
    rw [← hlendef, hval]
    have hlenfold : (List.replicate (k - len) '0' ++ natDecChars (m % 10 ^ k)).length = k := by
      rw [← hfracdef, hfraclen]
    rw [hlenfold]
    exact congrArg some (rat_div_pow_eq m k n d hd hmd)

theorem natDecChars_append_head_digit (x : ℕ) (Y : List Char) :
    ∀ c, (natDecChars x ++ Y).head? = some c → isDigitCh c = true := by
  intro c hc
  cases hcs : natDecChars x with
  | nil => exact absurd hcs (natDecChars_ne_nil x)
  | cons c0 r =>
    rw [hcs] at hc
    simp at hc
    subst hc
    exact natDecChars_all_digits x c0 (by simp [hcs])

theorem fmtNonnegF64_head_digit (n d : ℕ) :
    ∀ c, (fmtNonnegF64 n d).head? = some c → isDigitCh c = true := by
  intro c hc
  rw [fmtNonnegF64] at hc
  by_cases hk : decExp d = 0
  · rw [if_pos hk] at hc
    have : (natDecChars (n * (10 ^ decExp d / d)) ++ []).head? = some c := by simpa using hc
    exact natDecChars_append_head_digit _ _ c this
  · rw [if_neg hk] at hc
    exact natDecChars_append_head_digit _ _ c hc

theorem rustParseF64_fmtF64 (q : ℚ) (h : q.den ∣ 10 ^ q.den) :
    rustParseF64 (fmtF64 q) = some q := by
  have hden : q.den ≠ 0 := q.den_nz
  rw [fmtF64]
  by_cases hq : q < 0
  · rw [if_pos hq, rustParseF64]
    simp only [List.head?_cons, List.tail_cons]
    rw [if_pos trivial]
    rw [fmtNonnegF64_parts q.num.natAbs q.den hden h]
    have hnum : (q.num.natAbs : ℚ) = -(q.num : ℚ) := by
      rw [Int.cast_natAbs]
      exact_mod_cast abs_of_neg (Rat.num_neg.mpr hq)
    rw [hnum]
    simp only [Option.map_some', neg_div, neg_neg, Rat.num_div_den]
  · rw [if_neg hq]
    have hhead := fmtNonnegF64_head_digit q.num.natAbs q.den
    rw [rustParseF64]
    rw [if_neg (fun hc => absurd (hhead _ hc) (by decide)),
      if_neg (fun hc => absurd (hhead _ hc) (by decide))]
    rw [fmtNonnegF64_parts _ _ hden h]
    have hnum : (q.num.natAbs : ℚ) = (q.num : ℚ) := by
      rw [Int.cast_natAbs]
      exact_mod_cast abs_of_nonneg (Rat.num_nonneg.mpr (le_of_not_lt hq))
    rw [hnum, Rat.num_div_den]

/-! ## Whitespace tokenization of the serializer's output -/

theorem splitWsGo_append_space (B : List Char) :
    ∀ (A acc : List Char),
      splitWsGo (A ++ ' ' :: B) acc = splitWsGo A acc ++ splitWs B := by
  intro A
  induction A with
  | nil =>
    intro acc
    by_cases hacc : acc.isEmpty
    · simp [splitWsGo, splitWs, isWs, hacc]
    · simp [splitWsGo, splitWs, isWs, hacc]
  | cons a A' ih =>
    intro acc
    by_cases ha : isWs a
    · by_cases hacc : acc.isEmpty
      · simp [splitWsGo, ha, hacc, ih]
      · simp [splitWsGo, ha, hacc, ih]
    · simp [splitWsGo, ha, ih]

theorem splitWs_append_space (A B : List Char) :
    splitWs (A ++ ' ' :: B) = splitWs A ++ splitWs B :=
  splitWsGo_append_space B A []

theorem splitWsGo_token (T : List Char) (hT : ∀ c ∈ T, isWs c = false) :
    ∀ acc : List Char, acc.reverse ++ T ≠ [] → splitWsGo T acc = [acc.reverse ++ T] := by
  induction T with
  | nil =>
    intro acc hne
    have : ¬ acc.isEmpty := by
      simp only [List.isEmpty_iff]
      intro hc
      exact hne (by simp [hc])
    simp [splitWsGo, this]
  | cons t T' ih =>
    intro acc _
    have ht : isWs t = false := hT t (by simp)
    have hT' : ∀ c ∈ T', isWs c = false := fun c hc => hT c (by simp [hc])
    rw [splitWsGo, if_neg (by simp [ht])]
    rw [ih hT' (t :: acc) (by simp)]
    simp

theorem splitWs_token (T : List Char) (hT : ∀ c ∈ T, isWs c = false) (hne : T ≠ []) :
    splitWs T = [T] := by
  rw [splitWs, splitWsGo_token T hT [] (by simpa using hne)]
  simp

/-! ## Line splitting of the serializer's output -/

theorem stripCR_no_cr (A : List Char) (h : ∀ c ∈ A, c ≠ '\r') : stripCR A = A := by
  rw [stripCR]
  by_cases hl : A.getLast? = some '\r'
  · exact absurd (h _ (List.mem_of_mem_getLast? hl) rfl) (by simp)
  · rw [if_neg hl]

theorem rustLinesGo_line (rest : List Char) :
    ∀ (A acc : List Char), (∀ c ∈ A, c ≠ '\n') →
      rustLinesGo (A ++ '\n' :: rest) acc
        = stripCR (acc.reverse ++ A) :: rustLinesGo rest [] := by
  intro A
  induction A with
  | nil =>
    intro acc _
    simp [rustLinesGo]
  | cons a A' ih =>
    intro acc hA
    have ha : a ≠ '\n' := hA a (by simp)
    rw [List.cons_append, rustLinesGo, if_neg ha]
    rw [ih (a :: acc) (fun c hc => hA c (by simp [hc]))]
    simp

theorem rustLines_three (b1 b2 b3 : List Char)
    (h1 : ∀ c ∈ b1, c ≠ '\n' ∧ c ≠ '\r')
    (h2 : ∀ c ∈ b2, c ≠ '\n' ∧ c ≠ '\r')
    (h3 : ∀ c ∈ b3, c ≠ '\n' ∧ c ≠ '\r') :
    rustLinesGo (b1 ++ '\n' :: (b2 ++ '\n' :: (b3 ++ ['\n']))) [] = [b1, b2, b3] := by
  rw [rustLinesGo_line _ b1 [] (fun c hc => (h1 c hc).1)]
  rw [rustLinesGo_line _ b2 [] (fun c hc => (h2 c hc).1)]
  have hb3 : b3 ++ ['\n'] = b3 ++ '\n' :: [] := rfl
  rw [hb3, rustLinesGo_line [] b3 [] (fun c hc => (h3 c hc).1)]
  simp only [List.reverse_nil, List.nil_append]
  rw [stripCR_no_cr b1 (fun c hc => (h1 c hc).2),
    stripCR_no_cr b2 (fun c hc => (h2 c hc).2),
    stripCR_no_cr b3 (fun c hc => (h3 c hc).2)]
  simp [rustLinesGo]

/-! ## Character classes of the serializer's output -/

theorem digit_char_props (c : Char) (h : isDigitCh c = true) :
    isWs c = false ∧ c ≠ '\n' ∧ c ≠ '\r' := by
  refine ⟨?_, ?_, ?_⟩
  · by_contra hws
    simp only [Bool.not_eq_false, isWs] at hws
    rcases (by simpa using hws : ((c = ' ' ∨ c = '\t') ∨ c = '\n') ∨ c = '\r') with
      ((rfl | rfl) | rfl) | rfl <;> exact absurd h (by decide)
  · rintro rfl
    exact absurd h (by decide)
  · rintro rfl
    exact absurd h (by decide)

theorem fmtNonnegF64_chars (n d : ℕ) :
    ∀ c ∈ fmtNonnegF64 n d, isDigitCh c = true ∨ c = '.' := by
  intro c hc
  rw [fmtNonnegF64] at hc
  by_cases hk : decExp d = 0
  · rw [if_pos hk] at hc
    exact Or.inl (natDecChars_all_digits _ c hc)
  · rw [if_neg hk] at hc
    rcases List.mem_append.mp hc with h | h
    · exact Or.inl (natDecChars_all_digits _ c h)
    · rcases List.mem_cons.mp h with rfl | h
      · exact Or.inr rfl
      · rcases List.mem_append.mp h with h | h
        · exact Or.inl (by rw [List.eq_of_mem_replicate h]; decide)
        · exact Or.inl (natDecChars_all_digits _ c h)

theorem fmtF64_chars (q : ℚ) :
    ∀ c ∈ fmtF64 q, isDigitCh c = true ∨ c = '.' ∨ c = '-' := by
  intro c hc
  rw [fmtF64] at hc
  by_cases hq : q < 0
  · rw [if_pos hq] at hc
    rcases List.mem_cons.mp hc with rfl | h
    · exact Or.inr (Or.inr rfl)
    · rcases fmtNonnegF64_chars _ _ c h with h | h
      · exact Or.inl h
      · exact Or.inr (Or.inl h)
  · rw [if_neg hq] at hc
    rcases fmtNonnegF64_chars _ _ c hc with h | h
    · exact Or.inl h
    · exact Or.inr (Or.inl h)

theorem fmtF64_safe (q : ℚ) :
    ∀ c ∈ fmtF64 q, isWs c = false ∧ c ≠ '\n' ∧ c ≠ '\r' := by
  intro c hc
  rcases fmtF64_chars q c hc with h | rfl | rfl
  · exact digit_char_props c h
  · exact ⟨by decide, by decide, by decide⟩
  · exact ⟨by decide, by decide, by decide⟩

theorem fmtF64_ne_nil (q : ℚ) : fmtF64 q ≠ [] := by
  rw [fmtF64]
  by_cases hq : q < 0
  · simp [hq]
  · rw [if_neg hq, fmtNonnegF64]
    by_cases hk : decExp q.den = 0
    · rw [if_pos hk]
      exact natDecChars_ne_nil _
    · rw [if_neg hk]
      intro hcon
      exact natDecChars_ne_nil _ (List.append_eq_nil.mp hcon).1

/-! ## Tokenizing the points line -/

theorem splitWs_join_tokens :
    ∀ (qs : List ℚ) (q : ℚ),
      splitWs (fmtF64 q ++ qs.flatMap (fun r => ' ' :: fmtF64 r))
        = fmtF64 q :: qs.map fmtF64 := by
  intro qs
  induction qs with
  | nil =>
    intro q
    simp only [List.flatMap_nil, List.append_nil, List.map_nil]
    exact splitWs_token (fmtF64 q) (fun c hc => (fmtF64_safe q c hc).1) (fmtF64_ne_nil q)
  | cons r rest ih =>
    intro q
    have hshape : fmtF64 q ++ (r :: rest).flatMap (fun r => ' ' :: fmtF64 r)
        = fmtF64 q ++ ' ' :: (fmtF64 r ++ rest.flatMap (fun r => ' ' :: fmtF64 r)) := by
      simp
    rw [hshape, splitWs_append_space]
    rw [splitWs_token (fmtF64 q) (fun c hc => (fmtF64_safe q c hc).1) (fmtF64_ne_nil q)]
    rw [ih r]
    simp

theorem coordChars_tokens (el : PathEl) :
    splitWs el.coordChars = el.coordsOf.map fmtF64 := by
  rw [PathEl.coordChars]
  cases hco : el.coordsOf with
  | nil => simp [splitWs, splitWsGo]
  | cons q qs =>
    simp only []
    rw [splitWs_join_tokens qs q]
    simp

theorem pointsGroups_shift :
    ∀ (els : List PathEl) (n : ℕ),
      (List.enumFrom (n + 1) els).flatMap
        (fun iel => (if iel.1 = 0 then [] else [' ']) ++ iel.2.coordChars)
        = els.flatMap (fun el => ' ' :: el.coordChars) := by
  intro els
  induction els with
  | nil => intro n; simp
  | cons e rest ih =>
    intro n
    rw [List.enumFrom]
    simp only [List.flatMap_cons]
    rw [ih (n + 1)]
    simp

theorem splitWs_pointsChain :
    ∀ (rest : List PathEl) (X : PathEl),
      splitWs (X.coordChars ++ rest.flatMap (fun el => ' ' :: el.coordChars))
        = ((X.coordsOf ++ rest.flatMap PathEl.coordsOf).map fmtF64) := by
  intro rest
  induction rest with
  | nil =>
    intro X
    simp only [List.flatMap_nil, List.append_nil]
    exact coordChars_tokens X
  | cons Y rest' ih =>
    intro X
    have hshape : X.coordChars ++ (Y :: rest').flatMap (fun el => ' ' :: el.coordChars)
        = X.coordChars ++ ' ' ::
            (Y.coordChars ++ rest'.flatMap (fun el => ' ' :: el.coordChars)) := by
      simp
    rw [hshape, splitWs_append_space, coordChars_tokens X, ih Y]
    simp

theorem splitWs_pointsBody (els : List PathEl) :
    splitWs (els.enum.flatMap
        (fun iel => (if iel.1 = 0 then [] else [' ']) ++ iel.2.coordChars))
      = (coordsOfEls els).map fmtF64 := by
  cases els with
  | nil => simp [coordsOfEls, splitWs, splitWsGo]
  | cons e rest =>
    rw [List.enum_cons]
    simp only [List.flatMap_cons]
    rw [if_pos trivial, List.nil_append, pointsGroups_shift rest 0, splitWs_pointsChain rest e]
    simp [coordsOfEls]

theorem coordsOfEls_cons (el : PathEl) (rest : List PathEl) :
    coordsOfEls (el :: rest) = el.coordsOf ++ coordsOfEls rest := by
  simp [coordsOfEls]

/-! ## Reading back the serialized data -/

theorem readGo_letters (els : List PathEl) :
    ∀ acc : List PathEl,
      readSvgcomDataGo (els.map PathEl.letter) (coordsOfEls els) acc
        = .ok (acc.reverse ++ els) := by
  induction els with
  | nil => intro acc; simp [readSvgcomDataGo, coordsOfEls]
  | cons el rest ih =>
    intro acc
    cases el with
    | moveTo p =>
      have hcoords : coordsOfEls (PathEl.moveTo p :: rest)
          = p.x :: p.y :: coordsOfEls rest := by
        simp [coordsOfEls_cons, PathEl.coordsOf]
      rw [List.map_cons, hcoords]
      rw [show PathEl.letter (PathEl.moveTo p) = 'M' from rfl]
      rw [readSvgcomDataGo, if_pos rfl]
      simp only [takePoint]
      exact (ih (PathEl.moveTo p :: acc)).trans (by simp)
    | lineTo p =>
      have hcoords : coordsOfEls (PathEl.lineTo p :: rest)
          = p.x :: p.y :: coordsOfEls rest := by
        simp [coordsOfEls_cons, PathEl.coordsOf]
      rw [List.map_cons, hcoords]
      rw [show PathEl.letter (PathEl.lineTo p) = 'L' from rfl]
      rw [readSvgcomDataGo, if_neg (by decide), if_pos rfl]
      simp only [takePoint]
      exact (ih (PathEl.lineTo p :: acc)).trans (by simp)
    | curveTo p1 p2 p3 =>
      have hcoords : coordsOfEls (PathEl.curveTo p1 p2 p3 :: rest)
          = p1.x :: p1.y :: p2.x :: p2.y :: p3.x :: p3.y :: coordsOfEls rest := by
        simp [coordsOfEls_cons, PathEl.coordsOf]
      rw [List.map_cons, hcoords]
      rw [show PathEl.letter (PathEl.curveTo p1 p2 p3) = 'C' from rfl]
      rw [readSvgcomDataGo, if_neg (by decide), if_neg (by decide), if_pos rfl]
      simp only [takePoint]
      exact (ih (PathEl.curveTo p1 p2 p3 :: acc)).trans (by simp)
    | closePath =>
      have hcoords : coordsOfEls (PathEl.closePath :: rest) = coordsOfEls rest := by
        simp [coordsOfEls_cons, PathEl.coordsOf]
      rw [List.map_cons, hcoords]
      rw [show PathEl.letter PathEl.closePath = 'Z' from rfl]
      rw [readSvgcomDataGo, if_neg (by decide), if_neg (by decide), if_neg (by decide),
        if_pos rfl]
      exact (ih (PathEl.closePath :: acc)).trans (by simp)

theorem coordsOfEls_length (els : List PathEl) :
    (coordsOfEls els).length = (els.map PathEl.points_count).sum * 2 := by
  induction els with
  | nil => simp [coordsOfEls]
  | cons el rest ih =>
    rw [coordsOfEls_cons, List.length_append, ih, List.map_cons, List.sum_cons]
    cases el <;> simp [PathEl.coordsOf, PathEl.points_count] <;> ring

theorem u32ofRatCeil_natCast (w : ℕ) (h : w < 2 ^ 32) : u32ofRatCeil (w : ℚ) = w := by
  rw [u32ofRatCeil, ratCeil, Rat.num_natCast, Rat.den_natCast]
  have hfdiv : (-(w : ℤ)).fdiv ((1 : ℕ) : ℤ) = -(w : ℤ) := by
    rw [Nat.cast_one, Int.fdiv_one]
  rw [hfdiv, neg_neg]
  by_cases hw : w = 0
  · simp [hw]
  · rw [if_neg (by exact_mod_cast fun hc => hw (by omega))]
    simp only [Int.toNat_natCast]
    omega

theorem mapM_fmt_coords :
    ∀ (qs : List ℚ), (∀ q ∈ qs, q.den ∣ 10 ^ q.den) →
      (qs.map fmtF64).mapM rustParseF64 = some qs := by
  intro qs
  induction qs with
  | nil => intro _; rfl
  | cons q rest ih =>
    intro h
    simp only [List.map_cons, List.mapM_cons]
    rw [rustParseF64_fmtF64 q (h q (by simp)), ih (fun r hr => h r (by simp [hr]))]
    rfl

theorem natDecChars_safe (x : ℕ) :
    ∀ c ∈ natDecChars x, isWs c = false ∧ c ≠ '\n' ∧ c ≠ '\r' :=
  fun c hc => digit_char_props c (natDecChars_all_digits x c hc)

theorem letter_safe (el : PathEl) : el.letter ≠ '\n' ∧ el.letter ≠ '\r' := by
  cases el <;> refine ⟨?_, ?_⟩ <;> simp [PathEl.letter]

theorem coordChars_safe (el : PathEl) :
    ∀ c ∈ el.coordChars, c ≠ '\n' ∧ c ≠ '\r' := by
  intro c hc
  rw [PathEl.coordChars] at hc
  cases hco : el.coordsOf with
  | nil => rw [hco] at hc; simp at hc
  | cons q qs =>
    rw [hco] at hc
    simp only [] at hc
    rcases List.mem_append.mp hc with h | h
    · exact (fmtF64_safe q c h).2
    · obtain ⟨r, _, hr⟩ := List.mem_flatMap.mp h
      rcases List.mem_cons.mp hr with rfl | hr
      · exact ⟨by decide, by decide⟩
      · exact (fmtF64_safe r c hr).2

/-- C8: serializing an `SvgCom` to the three-line svgcom text and parsing
it back yields the same value: equal view size, equal command sequence and
equal coordinate list (exactly, in the rational model of `f64`).  The
hypotheses state representability: the header numbers fit in `u32` (they
are printed and re-parsed as `u32`) and the coordinates are exact decimal
fractions (true of every finite `f64`). -/
theorem claim8_roundtrip (sc : SvgCom)
    (hW : sc.view_size.width < 2 ^ 32) (hH : sc.view_size.height < 2 ^ 32)
    (hcmd : sc.commands.length < 2 ^ 32) (hcoord : sc.coordinates_count < 2 ^ 32)
    (hden : ∀ q ∈ coordsOfEls sc.commands, q.den ∣ 10 ^ q.den) :
    from_svgcom_str (to_svgcom sc) = .ok sc := by
  obtain ⟨⟨W, H⟩, els⟩ := sc
  simp only [SvgCom.coordinates_count, SvgCom.points_count] at hcoord
  simp only [] at hW hH hcmd hden
  set n2 : ℕ := (els.map PathEl.points_count).sum * 2 with hn2def
  set b1 : List Char := natDecChars W ++ ' ' ::
    (natDecChars H ++ ' ' :: (natDecChars els.length ++ ' ' :: natDecChars n2)) with hb1
  set b2 : List Char := els.map PathEl.letter with hb2
  set b3 : List Char := els.enum.flatMap
    (fun iel => (if iel.1 = 0 then [] else [' ']) ++ iel.2.coordChars) with hb3
  have hb1safe : ∀ c ∈ b1, c ≠ '\n' ∧ c ≠ '\r' := by
    intro c hc
    rw [hb1] at hc
    rcases List.mem_append.mp hc with h | h
    · exact (natDecChars_safe W c h).2
    · rcases List.mem_cons.mp h with rfl | h
      · exact ⟨by decide, by decide⟩
      · rcases List.mem_append.mp h with h | h
        · exact (natDecChars_safe H c h).2
        · rcases List.mem_cons.mp h with rfl | h
          · exact ⟨by decide, by decide⟩
          · rcases List.mem_append.mp h with h | h
            · exact (natDecChars_safe els.length c h).2
            · rcases List.mem_cons.mp h with rfl | h
              · exact ⟨by decide, by decide⟩
              · exact (natDecChars_safe n2 c h).2
  have hb2safe : ∀ c ∈ b2, c ≠ '\n' ∧ c ≠ '\r' := by
    intro c hc
    rw [hb2] at hc
    obtain ⟨el, _, rfl⟩ := List.mem_map.mp hc
    exact letter_safe el
  have hb3safe : ∀ c ∈ b3, c ≠ '\n' ∧ c ≠ '\r' := by
    intro c hc
    rw [hb3] at hc
    obtain ⟨iel, _, hin⟩ := List.mem_flatMap.mp hc
    rcases List.mem_append.mp hin with h | h
    · by_cases h0 : iel.1 = 0
      · rw [if_pos h0] at h
        simp at h
      · rw [if_neg h0] at h
        rcases List.mem_cons.mp h with rfl | h
        · exact ⟨by decide, by decide⟩
        · simp at h
    · exact coordChars_safe iel.2 c h
  have hshape : (to_svgcom ⟨⟨W, H⟩, els⟩).data
      = b1 ++ '\n' :: (b2 ++ '\n' :: (b3 ++ ['\n'])) := by
    rw [to_svgcom]
    simp only [format_svgcom_metrics, format_svgcom_commands, format_svgcom_points,
      SvgCom.coordinates_count, SvgCom.points_count, hb1, hb2, hb3]
    simp [List.append_assoc]
  have hlines : rustLines (to_svgcom ⟨⟨W, H⟩, els⟩) = [b1, b2, b3] := by
    rw [rustLines, hshape]
    exact rustLines_three b1 b2 b3 hb1safe hb2safe hb3safe
  have hm : parse_svgcom_metrics b1 = .ok [W, H, els.length, n2] := by
    have htok : splitWs b1 = [natDecChars W, natDecChars H,
        natDecChars els.length, natDecChars n2] := by
      rw [hb1, splitWs_append_space, splitWs_append_space, splitWs_append_space]
      rw [splitWs_token _ (fun c hc => (natDecChars_safe W c hc).1) (natDecChars_ne_nil W),
        splitWs_token _ (fun c hc => (natDecChars_safe H c hc).1) (natDecChars_ne_nil H),
        splitWs_token _ (fun c hc => (natDecChars_safe els.length c hc).1)
          (natDecChars_ne_nil els.length),
        splitWs_token _ (fun c hc => (natDecChars_safe n2 c hc).1) (natDecChars_ne_nil n2)]
      rfl
    rw [parse_svgcom_metrics, htok]
    simp only [List.mapM_cons, List.mapM_nil,
      rustParseU32_natDecChars W hW, rustParseU32_natDecChars H hH,
      rustParseU32_natDecChars els.length hcmd, rustParseU32_natDecChars n2 hcoord]
    rfl
  have hcs : parse_svgcom_coords b3 = .ok (coordsOfEls els) := by
    rw [parse_svgcom_coords, hb3, splitWs_pointsBody els, mapM_fmt_coords _ hden]
  have hv : validate_svgcom_metrics [W, H, els.length, n2] (parse_svgcom_commands b2)
      (coordsOfEls els) = .ok () := by
    rw [validate_svgcom_metrics, if_neg]
    push_neg
    refine ⟨?_, ?_⟩
    · rw [parse_svgcom_commands, hb2]
      simp
    · rw [coordsOfEls_length els]
      rfl
  have hr : read_svgcom_data (parse_svgcom_commands b2) (coordsOfEls els) = .ok els := by
    rw [parse_svgcom_commands, hb2, read_svgcom_data]
    simpa using readGo_letters els []
  rw [from_svgcom_str, hlines]
  rw [if_neg (by simp)]
  simp only [List.getD_cons_zero, List.getD_cons_succ]
  rw [hm]
  simp only []
  rw [hcs]
  simp only []
  rw [hv]
  simp only []
  rw [hr]
  simp only [SvgCom.new]
  have hWc : u32ofRatCeil ((([W, H, els.length, n2].getD 0 0 : ℕ)) : ℚ) = W := by
    simp only [List.getD_cons_zero]
    exact u32ofRatCeil_natCast W hW
  have hHc : u32ofRatCeil ((([W, H, els.length, n2].getD 1 0 : ℕ)) : ℚ) = H := by
    simp only [List.getD_cons_succ, List.getD_cons_zero]
    exact u32ofRatCeil_natCast H hH
  rw [hWc, hHc]

/-- Witness for C8: a three-command `SvgCom` with integer coordinates
round-trips; the representability hypotheses hold and the theorem
applies. -/
theorem claim8_witness :
    ((⟨⟨3, 2⟩, [.moveTo ⟨1, 2⟩, .lineTo ⟨3, 4⟩, .closePath]⟩ : SvgCom).view_size.width < 2 ^ 32
      ∧ (⟨⟨3, 2⟩, [.moveTo ⟨1, 2⟩, .lineTo ⟨3, 4⟩, .closePath]⟩ : SvgCom).view_size.height < 2 ^ 32
      ∧ (⟨⟨3, 2⟩, [.moveTo ⟨1, 2⟩, .lineTo ⟨3, 4⟩, .closePath]⟩ : SvgCom).commands.length < 2 ^ 32
      ∧ (⟨⟨3, 2⟩, [.moveTo ⟨1, 2⟩, .lineTo ⟨3, 4⟩, .closePath]⟩ : SvgCom).coordinates_count < 2 ^ 32
      ∧ (∀ q ∈ coordsOfEls (⟨⟨3, 2⟩,
          [.moveTo ⟨1, 2⟩, .lineTo ⟨3, 4⟩, .closePath]⟩ : SvgCom).commands,
          q.den ∣ 10 ^ q.den))
    ∧ from_svgcom_str (to_svgcom ⟨⟨3, 2⟩, [.moveTo ⟨1, 2⟩, .lineTo ⟨3, 4⟩, .closePath]⟩)
        = .ok ⟨⟨3, 2⟩, [.moveTo ⟨1, 2⟩, .lineTo ⟨3, 4⟩, .closePath]⟩ :=
  ⟨⟨by decide, by decide, by decide, by decide, by decide⟩,
    claim8_roundtrip ⟨⟨3, 2⟩, [.moveTo ⟨1, 2⟩, .lineTo ⟨3, 4⟩, .closePath]⟩
      (by decide) (by decide) (by decide) (by decide) (by decide)⟩

end Svgps




